import Mathlib

/-!
Verification of the Redmine-RAG ETL pipeline: a shallow embedding of the
checkpointed fetch engine (`download_individual_redmine_issues.py` and
`download_redmine.py`), the dataset merger, and the anonymizer
(`redmine_master_dataset_anonymizer.py`).  Machine integers are modelled
as `Nat` (Redmine identifiers are nonnegative), fallible paths as
`Option`, and the HTTP server as an oracle function passed explicitly.
Persistent JSON files are modelled as explicit state values.
-/

/-- An issue record: its numeric identifier, the optional
`project_identifier` tag attached during the listing phase, and an
abstract body standing for all remaining JSON payload (subject,
journals, ...). -/
structure Issue where
  id : Nat
  pid? : Option String
  body : String
deriving DecidableEq, Repr

/-- Lookup in the `failed_issues` dict (issue id to retry count). -/
def fGet : List (Nat × Nat) → Nat → Option Nat
  | [], _ => none
  | p :: ps, k => if p.1 = k then some p.2 else fGet ps k

/-- `failed_issues[k] = v`: replace the binding of `k`, or append it. -/
def fSet : List (Nat × Nat) → Nat → Nat → List (Nat × Nat)
  | [], k, v => [(k, v)]
  | p :: ps, k, v => if p.1 = k then (k, v) :: ps else p :: fSet ps k v

/-- `del failed_issues[k]` (identity when `k` is unbound, matching the
guarded `if issue_id in failed_issues: del ...` in the source). -/
def fDel : List (Nat × Nat) → Nat → List (Nat × Nat)
  | [], _ => []
  | p :: ps, k => if p.1 = k then fDel ps k else p :: fDel ps k

/-- `successfully_fetched.add k` on the set modelled as a list. -/
def sAdd (s : List Nat) (k : Nat) : List Nat :=
  if k ∈ s then s else s ++ [k]

/-- Mutable state of `enrich_issues_with_journals`: the checkpoint's
`successfully_fetched` set, the `failed_issues` retry-count map, the
`enriched_issues` output accumulator, the trace of issue ids actually
requested over HTTP, and the `issues_retry_exhausted` counter. -/
structure EState where
  succ : List Nat
  failed : List (Nat × Nat)
  out : List Issue
  reqs : List Nat
  exhausted : Nat
deriving DecidableEq, Repr

/-- One iteration of the `for idx, issue in enumerate(issues, 1)` loop of
`enrich_issues_with_journals` (lines 184-236): skip items already in
`successfully_fetched`, keep the original for retry-exhausted items,
otherwise issue the fetch; on success carry `project_identifier` forward,
record success and drop the id from `failed_issues`; on failure bump the
retry counter and keep the original record. -/
def enrichStep (fetch : Nat → Option Issue) (R : Nat) (st : EState)
    (iss : Issue) : EState :=
  if iss.id ∈ st.succ then { st with out := st.out ++ [iss] }
  else if R ≤ (fGet st.failed iss.id).getD 0 then
    { st with out := st.out ++ [iss], exhausted := st.exhausted + 1 }
  else
    match fetch iss.id with
    | some e =>
      let e' := match iss.pid? with
        | some p => { e with pid? := some p }
        | none => e
      { st with succ := sAdd st.succ iss.id,
                failed := fDel st.failed iss.id,
                out := st.out ++ [e'],
                reqs := st.reqs ++ [iss.id] }
    | none =>
      { st with failed := fSet st.failed iss.id ((fGet st.failed iss.id).getD 0 + 1),
                out := st.out ++ [iss],
                reqs := st.reqs ++ [iss.id] }

/-- The whole enrichment loop, folded over the input list. -/
def enrichList (fetch : Nat → Option Issue) (R : Nat) :
    EState → List Issue → EState
  | st, [] => st
  | st, i :: is => enrichList fetch R (enrichStep fetch R st i) is

/-- `enrich_issues_with_journals` (lines 135-287).  `apiKeyOk` models the
`if not api_key` guard (on a missing key the input list is returned with
no requests issued); `succ0`/`failed0` are the state loaded from the
checkpoint file, empty when no checkpoint exists. -/
def enrich_issues_with_journals (apiKeyOk : Bool)
    (fetch : Nat → Option Issue) (R : Nat)
    (succ0 : List Nat) (failed0 : List (Nat × Nat))
    (issues : List Issue) : EState :=
  if apiKeyOk then
    enrichList fetch R ⟨succ0, failed0, [], [], 0⟩ issues
  else
    ⟨succ0, failed0, issues, [], 0⟩

/-- Lines 266-270: the checkpoint file is removed at the end of the run
exactly when `len(failed_issues) == 0`. -/
def checkpointRemoved (st : EState) : Bool := st.failed.isEmpty

/-- The identifiers tracked by the checkpoint: the success set together
with the keys of the retry-count map. -/
def tracked (st : EState) : List Nat := st.succ ++ st.failed.map (fun p => p.1)

/-- The single record appended to `enriched_issues` by one loop
iteration (mirror of the four branches of `enrichStep`). -/
def stepOut (fetch : Nat → Option Issue) (R : Nat) (st : EState)
    (iss : Issue) : Issue :=
  if iss.id ∈ st.succ then iss
  else if R ≤ (fGet st.failed iss.id).getD 0 then iss
  else
    match fetch iss.id with
    | some e => match iss.pid? with
      | some p => { e with pid? := some p }
      | none => e
    | none => iss

/-- The sequence of records the loop appends, one per input item. -/
def outSeq (fetch : Nat → Option Issue) (R : Nat) :
    EState → List Issue → List Issue
  | _, [] => []
  | st, i :: is =>
    stepOut fetch R st i :: outSeq fetch R (enrichStep fetch R st i) is

example : fGet [(1, 2), (3, 4)] 3 = some 4 := by decide
example : fDel [(1, 2), (3, 4)] 1 = [(3, 4)] := by decide

theorem enrichStep_out (fetch : Nat → Option Issue) (R : Nat) (st : EState)
    (iss : Issue) :
    (enrichStep fetch R st iss).out = st.out ++ [stepOut fetch R st iss] := by
  unfold enrichStep stepOut
  split
  · rfl
  split
  · rfl
  cases hf : fetch iss.id
  · rfl
  · cases iss.pid? <;> rfl

theorem enrichList_out (fetch : Nat → Option Issue) (R : Nat) :
    ∀ (is : List Issue) (st : EState),
    (enrichList fetch R st is).out = st.out ++ outSeq fetch R st is := by
  intro is
  induction is with
  | nil => intro st; simp [enrichList, outSeq]
  | cons i0 is ih =>
    intro st
    rw [enrichList, outSeq, ih, enrichStep_out]
    simp

theorem outSeq_length (fetch : Nat → Option Issue) (R : Nat) :
    ∀ (is : List Issue) (st : EState),
    (outSeq fetch R st is).length = is.length := by
  intro is
  induction is with
  | nil => intro st; rfl
  | cons i0 is ih => intro st; simp [outSeq, ih]

theorem stepOut_id (fetch : Nat → Option Issue) (R : Nat) (st : EState)
    (iss : Issue) (Hf : ∀ n e, fetch n = some e → e.id = n) :
    (stepOut fetch R st iss).id = iss.id := by
  unfold stepOut
  split
  · rfl
  split
  · rfl
  cases hf : fetch iss.id
  · rfl
  · rename_i e
    have he := Hf iss.id e hf
    cases iss.pid? <;> simpa using he

theorem outSeq_get? (fetch : Nat → Option Issue) (R : Nat)
    (Hf : ∀ n e, fetch n = some e → e.id = n) :
    ∀ (is : List Issue) (st : EState) (n : Nat),
    ((outSeq fetch R st is)[n]?).map Issue.id = (is[n]?).map Issue.id := by
  intro is
  induction is with
  | nil => intro st n; rfl
  | cons i0 is ih =>
    intro st n
    cases n with
    | zero => simpa [outSeq] using stepOut_id fetch R st i0 Hf
    | succ m => simpa [outSeq] using ih (enrichStep fetch R st i0) m

/-- C1: every run of `enrich_issues_with_journals` returns an output of
exactly the input's length, and the record at each index carries the same
identifier as the input record at that index, on every path (skip from
checkpoint, successful fetch, failure, retry exhaustion), provided the
remote endpoint returns the issue that was asked for. -/
theorem c1_enrich_order_preservation (apiKeyOk : Bool)
    (fetch : Nat → Option Issue) (R : Nat) (succ0 : List Nat)
    (failed0 : List (Nat × Nat)) (issues : List Issue)
    (Hf : ∀ n e, fetch n = some e → e.id = n) :
    (enrich_issues_with_journals apiKeyOk fetch R succ0 failed0 issues).out.length
      = issues.length ∧
    ∀ n : Nat,
      (((enrich_issues_with_journals apiKeyOk fetch R succ0 failed0 issues).out[n]?).map Issue.id)
        = ((issues[n]?).map Issue.id) := by
  cases apiKeyOk with
  | false => exact ⟨rfl, fun n => rfl⟩
  | true =>
    have hout : (enrich_issues_with_journals true fetch R succ0 failed0 issues).out
        = outSeq fetch R ⟨succ0, failed0, [], [], 0⟩ issues := by
      show (enrichList fetch R ⟨succ0, failed0, [], [], 0⟩ issues).out = _
      rw [enrichList_out]
      rfl
    constructor
    · rw [hout, outSeq_length]
    · intro n
      rw [hout]
      exact outSeq_get? fetch R Hf issues ⟨succ0, failed0, [], [], 0⟩ n

theorem c1_witness :
    (enrich_issues_with_journals true (fun n => some ⟨n, none, "e"⟩) 3 [] []
      [⟨5, none, "o"⟩]).out.length = 1 :=
  (c1_enrich_order_preservation true (fun n => some ⟨n, none, "e"⟩) 3 [] []
    [⟨5, none, "o"⟩] (by intro n e h; cases h; rfl)).1

theorem fGet_fSet_ne (f : List (Nat × Nat)) (k k' v : Nat) (h : k ≠ k') :
    fGet (fSet f k v) k' = fGet f k' := by
  induction f with
  | nil => simp [fSet, fGet, h]
  | cons p ps ih =>
    by_cases hp : p.1 = k
    · simp [fSet, hp, fGet, h]
    · simp [fSet, hp, fGet, ih]

theorem fGet_fDel_ne (f : List (Nat × Nat)) (k k' : Nat) (h : k ≠ k') :
    fGet (fDel f k) k' = fGet f k' := by
  induction f with
  | nil => rfl
  | cons p ps ih =>
    by_cases hp : p.1 = k
    · have hne : p.1 ≠ k' := fun he => h (hp.symm.trans he)
      simp [fDel, hp, fGet, hne, ih, h]
    · by_cases hp' : p.1 = k'
      · simp [fDel, hp, fGet, hp', Ne.symm h]
      · simp [fDel, hp, fGet, hp', ih, Ne.symm h]

theorem fGet_fDel_self (f : List (Nat × Nat)) (k : Nat) :
    fGet (fDel f k) k = none := by
  induction f with
  | nil => rfl
  | cons p ps ih =>
    by_cases hp : p.1 = k
    · simpa [fDel, hp] using ih
    · simpa [fDel, hp, fGet, hp] using ih

theorem mem_sAdd (s : List Nat) (k k' : Nat) :
    k' ∈ sAdd s k ↔ k' ∈ s ∨ k' = k := by
  unfold sAdd
  split
  · rename_i hk
    constructor
    · exact fun h => Or.inl h
    · rintro (h | h)
      · exact h
      · rw [h]; exact hk
  · simp

theorem fGet_isEmpty_false (f : List (Nat × Nat)) (k v : Nat)
    (h : fGet f k = some v) : f.isEmpty = false := by
  cases f with
  | nil => simp [fGet] at h
  | cons p ps => rfl

theorem exhausted_inv_step (fetch : Nat → Option Issue) (R : Nat)
    (st : EState) (iss : Issue) (id c : Nat)
    (h1 : id ∉ st.succ) (h2 : fGet st.failed id = some c) (h3 : R ≤ c) :
    id ∉ (enrichStep fetch R st iss).succ ∧
    fGet (enrichStep fetch R st iss).failed id = some c ∧
    ((enrichStep fetch R st iss).reqs = st.reqs ∨
      ∃ k, k ≠ id ∧ (enrichStep fetch R st iss).reqs = st.reqs ++ [k]) := by
  unfold enrichStep
  split
  · exact ⟨h1, h2, Or.inl rfl⟩
  split
  · exact ⟨h1, h2, Or.inl rfl⟩
  rename_i hsucc hexh
  have hne : iss.id ≠ id := by
    intro he
    rw [he, h2] at hexh
    exact hexh h3
  cases hf : fetch iss.id
  · refine ⟨h1, ?_, Or.inr ⟨iss.id, hne, rfl⟩⟩
    rw [fGet_fSet_ne _ _ _ _ hne]
    exact h2
  · refine ⟨?_, ?_, Or.inr ⟨iss.id, hne, rfl⟩⟩
    · intro hmem
      rcases (mem_sAdd st.succ iss.id id).mp hmem with h | h
      · exact h1 h
      · exact hne h.symm
    · rw [fGet_fDel_ne _ _ _ hne]
      exact h2

theorem exhausted_inv (fetch : Nat → Option Issue) (R : Nat) (id c : Nat)
    (h3 : R ≤ c) :
    ∀ (is : List Issue) (st : EState),
    id ∉ st.succ → fGet st.failed id = some c →
    id ∉ (enrichList fetch R st is).succ ∧
    fGet (enrichList fetch R st is).failed id = some c := by
  intro is
  induction is with
  | nil => intro st h1 h2; exact ⟨h1, h2⟩
  | cons i0 is ih =>
    intro st h1 h2
    have hs := exhausted_inv_step fetch R st i0 id c h1 h2 h3
    exact ih (enrichStep fetch R st i0) hs.1 hs.2.1

theorem exhausted_no_req (fetch : Nat → Option Issue) (R : Nat) (id c : Nat)
    (h3 : R ≤ c) :
    ∀ (is : List Issue) (st : EState),
    id ∉ st.succ → fGet st.failed id = some c → id ∉ st.reqs →
    id ∉ (enrichList fetch R st is).reqs := by
  intro is
  induction is with
  | nil => intro st _ _ hr; exact hr
  | cons i0 is ih =>
    intro st h1 h2 hr
    have hs := exhausted_inv_step fetch R st i0 id c h1 h2 h3
    refine ih (enrichStep fetch R st i0) hs.1 hs.2.1 ?_
    rcases hs.2.2 with h | ⟨k, hk, h⟩
    · rw [h]; exact hr
    · rw [h]
      intro hmem
      rcases List.mem_append.mp hmem with hm | hm
      · exact hr hm
      · exact hk (List.mem_singleton.mp hm).symm

theorem disj_step (fetch : Nat → Option Issue) (R : Nat) (st : EState)
    (iss : Issue) (hdisj : ∀ k ∈ st.succ, fGet st.failed k = none) :
    ∀ k ∈ (enrichStep fetch R st iss).succ,
      fGet (enrichStep fetch R st iss).failed k = none := by
  unfold enrichStep
  split
  · exact hdisj
  split
  · exact hdisj
  rename_i hsucc hexh
  cases hf : fetch iss.id
  · intro k hk
    have hne : iss.id ≠ k := fun he => hsucc (he ▸ hk)
    rw [fGet_fSet_ne _ _ _ _ hne]
    exact hdisj k hk
  · intro k hk
    rcases (mem_sAdd st.succ iss.id k).mp hk with h | h
    · by_cases he : iss.id = k
      · rw [← he]; exact fGet_fDel_self _ _
      · rw [fGet_fDel_ne _ _ _ he]; exact hdisj k h
    · rw [h]; exact fGet_fDel_self _ _

theorem disj_inv (fetch : Nat → Option Issue) (R : Nat) :
    ∀ (is : List Issue) (st : EState),
    (∀ k ∈ st.succ, fGet st.failed k = none) →
    ∀ k ∈ (enrichList fetch R st is).succ,
      fGet (enrichList fetch R st is).failed k = none := by
  intro is
  induction is with
  | nil => intro st h; exact h
  | cons i0 is ih =>
    intro st h
    exact ih (enrichStep fetch R st i0) (disj_step fetch R st i0 h)

theorem removed_iff_all_succ (st : EState)
    (hdisj : ∀ k ∈ st.succ, fGet st.failed k = none) :
    (checkpointRemoved st = true ↔ ∀ k ∈ tracked st, k ∈ st.succ) := by
  constructor
  · intro h k hk
    cases hf : st.failed with
    | nil =>
      rw [tracked, hf] at hk
      simpa using hk
    | cons p ps =>
      rw [checkpointRemoved, hf] at h
      simp [List.isEmpty] at h
  · intro h
    cases hf : st.failed with
    | nil => rw [checkpointRemoved, hf]; rfl
    | cons p ps =>
      exfalso
      have hp : p.1 ∈ tracked st := by
        rw [tracked, hf]
        simp
      have h2 := hdisj p.1 (h p.1 hp)
      rw [hf] at h2
      simp [fGet] at h2

/-- C2 counterexample: a run over the single issue 1 whose checkpoint
carries retry count 3 (= the configured maximum).  Every tracked
identifier is succeeded-or-exhausted, yet the checkpoint is not removed:
exhausted identifiers stay in `failed_issues` and block the
`len(failed_issues) == 0` deletion test, contradicting the claim that
they are excluded from the residual-failure check. -/
theorem c2_counterexample :
    (∀ k ∈ tracked (enrich_issues_with_journals true (fun _ => none) 3 []
        [(1, 3)] [⟨1, none, "a"⟩]),
      k ∈ (enrich_issues_with_journals true (fun _ => none) 3 []
        [(1, 3)] [⟨1, none, "a"⟩]).succ ∨
      3 ≤ (fGet (enrich_issues_with_journals true (fun _ => none) 3 []
        [(1, 3)] [⟨1, none, "a"⟩]).failed k).getD 0) ∧
    checkpointRemoved (enrich_issues_with_journals true (fun _ => none) 3 []
        [(1, 3)] [⟨1, none, "a"⟩]) = false := by
  decide

/-- C2 (amended): at the end of a per-item enrichment run the checkpoint
is deleted iff `failed_issues` is empty, i.e. iff every tracked
identifier succeeded.  Retry-exhausted identifiers are NOT excluded: an
identifier whose persisted counter has reached the maximum `R` keeps
exactly its residual count in the persisted map and prevents checkpoint
deletion. -/
theorem c2_checkpoint_deletion_amended (fetch : Nat → Option Issue)
    (R : Nat) (succ0 : List Nat) (failed0 : List (Nat × Nat))
    (issues : List Issue)
    (hdisj : ∀ k ∈ succ0, fGet failed0 k = none) :
    (checkpointRemoved (enrich_issues_with_journals true fetch R succ0 failed0 issues) = true ↔
      ∀ k ∈ tracked (enrich_issues_with_journals true fetch R succ0 failed0 issues),
        k ∈ (enrich_issues_with_journals true fetch R succ0 failed0 issues).succ) ∧
    (∀ id c, id ∉ succ0 → fGet failed0 id = some c → R ≤ c →
      fGet (enrich_issues_with_journals true fetch R succ0 failed0 issues).failed id = some c ∧
      checkpointRemoved (enrich_issues_with_journals true fetch R succ0 failed0 issues) = false) := by
  have hrun : enrich_issues_with_journals true fetch R succ0 failed0 issues
      = enrichList fetch R ⟨succ0, failed0, [], [], 0⟩ issues := rfl
  constructor
  · rw [hrun]
    exact removed_iff_all_succ _ (disj_inv fetch R issues ⟨succ0, failed0, [], [], 0⟩ hdisj)
  · intro id c hid hfc hRc
    rw [hrun]
    have hinv := exhausted_inv fetch R id c hRc issues ⟨succ0, failed0, [], [], 0⟩ hid hfc
    refine ⟨hinv.2, ?_⟩
    rw [checkpointRemoved]
    exact fGet_isEmpty_false _ id c hinv.2

/-- Witness for C2's amended theorem at a concrete input. -/
theorem c2_amended_witness :
    fGet (enrich_issues_with_journals true (fun _ => none) 3 [] [(7, 3)]
      [⟨7, none, "x"⟩]).failed 7 = some 3 :=
  ((c2_checkpoint_deletion_amended (fun _ => none) 3 [] [(7, 3)]
    [⟨7, none, "x"⟩] (by intro k hk; simp at hk)).2 7 3
    (by simp) rfl (by decide)).1

theorem stepOut_exhausted (fetch : Nat → Option Issue) (R : Nat)
    (st : EState) (iss : Issue) (c : Nat) (h1 : iss.id ∉ st.succ)
    (h2 : fGet st.failed iss.id = some c) (h3 : R ≤ c) :
    stepOut fetch R st iss = iss := by
  unfold stepOut
  rw [if_neg h1, if_pos]
  rw [h2]
  exact h3

theorem outSeq_exhausted (fetch : Nat → Option Issue) (R : Nat)
    (id c : Nat) (h3 : R ≤ c) :
    ∀ (is : List Issue) (st : EState),
    id ∉ st.succ → fGet st.failed id = some c →
    ∀ (n : Nat) (iss : Issue), is[n]? = some iss → iss.id = id →
    (outSeq fetch R st is)[n]? = some iss := by
  intro is
  induction is with
  | nil => intro st _ _ n iss h _; simp at h
  | cons i0 is ih =>
    intro st h1 h2 n iss hn hid
    cases n with
    | zero =>
      have h0 : i0 = iss := by simpa using hn
      subst h0
      rw [outSeq]
      have := stepOut_exhausted fetch R st i0 c (hid ▸ h1) (hid ▸ h2) h3
      simp [this]
    | succ m =>
      have hs := exhausted_inv_step fetch R st i0 id c h1 h2 h3
      have hn' : is[m]? = some iss := by simpa using hn
      simpa [outSeq] using
        ih (enrichStep fetch R st i0) hs.1 hs.2.1 m iss hn' hid

theorem exhausted_mono_step (fetch : Nat → Option Issue) (R : Nat)
    (st : EState) (iss : Issue) :
    st.exhausted ≤ (enrichStep fetch R st iss).exhausted := by
  unfold enrichStep
  split
  · exact Nat.le_refl _
  split
  · exact Nat.le_succ _
  cases fetch iss.id
  · exact Nat.le_refl _
  · exact Nat.le_refl _

theorem exhausted_mono (fetch : Nat → Option Issue) (R : Nat) :
    ∀ (is : List Issue) (st : EState),
    st.exhausted ≤ (enrichList fetch R st is).exhausted := by
  intro is
  induction is with
  | nil => intro st; exact Nat.le_refl _
  | cons i0 is ih =>
    intro st
    exact Nat.le_trans (exhausted_mono_step fetch R st i0)
      (ih (enrichStep fetch R st i0))

theorem exhausted_counter (fetch : Nat → Option Issue) (R : Nat)
    (id c : Nat) (h3 : R ≤ c) :
    ∀ (is : List Issue) (st : EState),
    id ∉ st.succ → fGet st.failed id = some c →
    id ∈ is.map Issue.id →
    st.exhausted + 1 ≤ (enrichList fetch R st is).exhausted := by
  intro is
  induction is with
  | nil => intro st _ _ h; simp at h
  | cons i0 is ih =>
    intro st h1 h2 hmem
    by_cases hid : i0.id = id
    · have hstep : (enrichStep fetch R st i0).exhausted = st.exhausted + 1 := by
        unfold enrichStep
        rw [if_neg (hid ▸ h1), if_pos]
        rw [hid, h2]
        exact h3
      rw [enrichList, ← hstep]
      exact exhausted_mono fetch R is (enrichStep fetch R st i0)
    · have hmem' : id ∈ is.map Issue.id := by
        rcases List.mem_map.mp hmem with ⟨a, ha, haid⟩
        rcases List.mem_cons.mp ha with h | h
        · exact absurd (h ▸ haid) hid
        · exact List.mem_map.mpr ⟨a, h, haid⟩
      have hs := exhausted_inv_step fetch R st i0 id c h1 h2 h3
      rw [enrichList]
      exact Nat.le_trans
        (Nat.add_le_add_right (exhausted_mono_step fetch R st i0) 1)
        (ih (enrichStep fetch R st i0) hs.1 hs.2.1 hmem')

/-- C5: an item whose persisted retry counter has reached the maximum `R`
keeps its original (pre-enrichment) record at its position in the output,
is counted by the `issues_retry_exhausted` counter, and no request for its
identifier is issued in this run; moreover its counter and exclusion from
the success set survive into the final state, so a subsequent run started
from that state issues no request for it either. -/
theorem c5_retry_exhaustion (fetch : Nat → Option Issue) (R : Nat)
    (succ0 : List Nat) (failed0 : List (Nat × Nat)) (issues : List Issue)
    (id c : Nat) (h1 : id ∉ succ0) (h2 : fGet failed0 id = some c)
    (h3 : R ≤ c) :
    (∀ (n : Nat) (iss : Issue), issues[n]? = some iss → iss.id = id →
      (enrich_issues_with_journals true fetch R succ0 failed0 issues).out[n]? = some iss) ∧
    id ∉ (enrich_issues_with_journals true fetch R succ0 failed0 issues).reqs ∧
    (id ∈ issues.map Issue.id →
      1 ≤ (enrich_issues_with_journals true fetch R succ0 failed0 issues).exhausted) ∧
    fGet (enrich_issues_with_journals true fetch R succ0 failed0 issues).failed id = some c ∧
    id ∉ (enrich_issues_with_journals true fetch R succ0 failed0 issues).succ ∧
    (∀ issues2 : List Issue,
      id ∉ (enrich_issues_with_journals true fetch R
        (enrich_issues_with_journals true fetch R succ0 failed0 issues).succ
        (enrich_issues_with_journals true fetch R succ0 failed0 issues).failed
        issues2).reqs) := by
  have hrun : enrich_issues_with_journals true fetch R succ0 failed0 issues
      = enrichList fetch R ⟨succ0, failed0, [], [], 0⟩ issues := rfl
  have hinv := exhausted_inv fetch R id c h3 issues ⟨succ0, failed0, [], [], 0⟩ h1 h2
  refine ⟨?_, ?_, ?_, ?_, ?_, ?_⟩
  · intro n iss hn hid
    rw [hrun, enrichList_out]
    simpa using outSeq_exhausted fetch R id c h3 issues
      ⟨succ0, failed0, [], [], 0⟩ h1 h2 n iss hn hid
  · rw [hrun]
    exact exhausted_no_req fetch R id c h3 issues
      ⟨succ0, failed0, [], [], 0⟩ h1 h2 (by simp)
  · intro hmem
    rw [hrun]
    exact exhausted_counter fetch R id c h3 issues
      ⟨succ0, failed0, [], [], 0⟩ h1 h2 hmem
  · rw [hrun]; exact hinv.2
  · rw [hrun]; exact hinv.1
  · intro issues2
    rw [hrun]
    exact exhausted_no_req fetch R id c h3 issues2
      ⟨(enrichList fetch R ⟨succ0, failed0, [], [], 0⟩ issues).succ,
        (enrichList fetch R ⟨succ0, failed0, [], [], 0⟩ issues).failed, [], [], 0⟩
      hinv.1 hinv.2 (by simp)

/-- Witness for C5 at a concrete input: issue 42 with counter at the
maximum 3 is never requested. -/
theorem c5_witness :
    42 ∉ (enrich_issues_with_journals true (fun n => some ⟨n, none, "z"⟩) 3 []
      [(42, 3)] [⟨42, none, "orig"⟩]).reqs :=
  (c5_retry_exhaustion (fun n => some ⟨n, none, "z"⟩) 3 [] [(42, 3)]
    [⟨42, none, "orig"⟩] 42 3 (by simp) rfl (by decide)).2.1

/-- Fetch oracle for the C3 scenario: issue 1 resolves to an enriched
record whose body differs from the stored original. -/
def fetchC3 : Nat → Option Issue :=
  fun n => if n = 1 then some ⟨1, none, "enriched"⟩ else none

/-- C3: evaluation of the failing input.  A first run enriches issue 1;
a second run resumed from a checkpoint that records issue 1 as succeeded
issues zero requests, but its output is the ORIGINAL master record, not
the first run's enriched record: the skip path (line 190) appends
`issue` from the input list, although the comment on line 189 says the
enriched output should be loaded.  The second run's result set therefore
differs from the first run's. -/
theorem c3_second_run_differs :
    (enrich_issues_with_journals true fetchC3 3
      (enrich_issues_with_journals true fetchC3 3 [] [] [⟨1, none, "orig"⟩]).succ
      (enrich_issues_with_journals true fetchC3 3 [] [] [⟨1, none, "orig"⟩]).failed
      [⟨1, none, "orig"⟩]).reqs = [] ∧
    (enrich_issues_with_journals true fetchC3 3
      (enrich_issues_with_journals true fetchC3 3 [] [] [⟨1, none, "orig"⟩]).succ
      (enrich_issues_with_journals true fetchC3 3 [] [] [⟨1, none, "orig"⟩]).failed
      [⟨1, none, "orig"⟩]).out = [⟨1, none, "orig"⟩] ∧
    (enrich_issues_with_journals true fetchC3 3 [] [] [⟨1, none, "orig"⟩]).out
      = [⟨1, none, "enriched"⟩] ∧
    (enrich_issues_with_journals true fetchC3 3
      (enrich_issues_with_journals true fetchC3 3 [] [] [⟨1, none, "orig"⟩]).succ
      (enrich_issues_with_journals true fetchC3 3 [] [] [⟨1, none, "orig"⟩]).failed
      [⟨1, none, "orig"⟩]).out
      ≠ (enrich_issues_with_journals true fetchC3 3 [] [] [⟨1, none, "orig"⟩]).out := by
  decide

/-- The configured page size, `LIMIT = 100` in `download_redmine.py`. -/
def LIMIT : Nat := 100

/-- One page response of `GET /issues.json`: the page's records and the
server-reported `total_count`. -/
structure PageResp where
  issues : List Issue
  total_count : Nat
deriving DecidableEq, Repr

/-- A per-project checkpoint file as parsed by `fetch_issues`:
`checkpoint.get("offset", 0)` and `checkpoint.get("total", None)`. -/
structure PC where
  offset : Nat
  total? : Option Nat
deriving DecidableEq, Repr

/-- State of the paginated loop of `fetch_issues` (lines 62-101): the
current `offset`, the captured `total` (absent until the first
response), the accumulated `all_issues`, the persisted per-project
checkpoint file (`none` when absent or deleted), the trace of offsets
actually requested, and whether the loop ended in the exception
handler. -/
structure PState where
  offset : Nat
  total : Option Nat
  acc : List Issue
  ckpt : Option PC
  trace : List Nat
  err : Bool
deriving DecidableEq, Repr

/-- The negation of the `while total is None or offset < total` guard. -/
def pageStop (st : PState) : Bool :=
  match st.total with
  | some t => decide (t ≤ st.offset)
  | none => false

/-- The `while` loop of `fetch_issues` (lines 72-101), `fuel` bounding
the iteration count.  Each iteration requests the current offset, tags
the returned records with the project identifier, appends them, captures
`total_count` on the first response (breaking at once when it is zero),
advances the offset by `LIMIT` and persists checkpoint and data; a
request failure sets the error flag and breaks with the checkpoint
un-advanced. -/
def fetchLoop (server : Nat → Option PageResp) (pid : String) :
    Nat → PState → PState
  | 0, st => st
  | Nat.succ fuel, st =>
    if pageStop st then st
    else
      match server st.offset with
      | none => { st with err := true }
      | some resp =>
        match st.total with
        | none =>
          if resp.total_count = 0 then
            { st with
              acc := st.acc ++ resp.issues.map (fun i => { i with pid? := some pid }),
              total := some 0,
              trace := st.trace ++ [st.offset] }
          else
            fetchLoop server pid fuel
              { offset := st.offset + LIMIT,
                total := some resp.total_count,
                acc := st.acc ++ resp.issues.map (fun i => { i with pid? := some pid }),
                ckpt := some ⟨st.offset + LIMIT, some resp.total_count⟩,
                trace := st.trace ++ [st.offset],
                err := st.err }
        | some t =>
          fetchLoop server pid fuel
            { offset := st.offset + LIMIT,
              total := some t,
              acc := st.acc ++ resp.issues.map (fun i => { i with pid? := some pid }),
              ckpt := some ⟨st.offset + LIMIT, some t⟩,
              trace := st.trace ++ [st.offset],
              err := st.err }

/-- Lines 103-108 of `fetch_issues`: after the loop, the checkpoint file
is removed when `len(all_issues) == total` (false when `total` is still
`None`). -/
def fetchFinish (st : PState) : PState :=
  match st.total with
  | some t => if st.acc.length = t then { st with ckpt := none } else st
  | none => st

/-- The on-disk inputs of `fetch_issues` for one project: the stored
data file (absent, or its parsed list) and the checkpoint file. -/
structure DiskState where
  dataFile : Option (List Issue)
  ckpt : Option PC
deriving DecidableEq, Repr

/-- `is_complete` (lines 42-54): returns the boolean result together
with the disk state afterwards (the checkpoint file is removed on the
complete path). -/
def is_complete (d : DiskState) : Bool × DiskState :=
  match d.dataFile with
  | none => (false, d)
  | some issues =>
    match d.ckpt.bind PC.total? with
    | none => (true, { d with ckpt := none })
    | some t =>
      if issues.length = t then (true, { d with ckpt := none })
      else (false, d)

/-- `fetch_issues` (lines 57-109): short-circuits via `is_complete`,
otherwise resumes the loop from the checkpoint's offset/total and the
stored data, then applies the completion bookkeeping.  Returns the
result list and the final loop state (requested offsets in `.trace`,
surviving checkpoint file in `.ckpt`). -/
def fetch_issues (server : Nat → Option PageResp) (pid : String)
    (fuel : Nat) (d : DiskState) : List Issue × PState :=
  if (is_complete d).1 then
    (d.dataFile.getD [], ⟨0, none, d.dataFile.getD [], none, [], false⟩)
  else
    ((fetchFinish (fetchLoop server pid fuel
        ⟨(d.ckpt.map PC.offset).getD 0, d.ckpt.bind PC.total?,
          d.dataFile.getD [], d.ckpt, [], false⟩)).acc,
      fetchFinish (fetchLoop server pid fuel
        ⟨(d.ckpt.map PC.offset).getD 0, d.ckpt.bind PC.total?,
          d.dataFile.getD [], d.ckpt, [], false⟩))

/-- C4 counterexample: with a stored data file and NO checkpoint at all,
`is_complete` still short-circuits, refuting "precisely when a prior
checkpoint exists with cursor equal to total and stored count equal to
total" (the code never consults the cursor and treats an absent
checkpoint total as complete). -/
theorem c4_counterexample :
    (is_complete ⟨some [], none⟩).1 = true ∧
    ¬∃ (c : PC) (t : Nat), (DiskState.mk (some []) none).ckpt = some c ∧
      c.total? = some t ∧ c.offset = t ∧
      ((DiskState.mk (some []) none).dataFile.getD []).length = t := by
  constructor
  · rfl
  · rintro ⟨c, t, hc, -⟩
    simp at hc

/-- C4 (amended): `fetch_issues` short-circuits and returns the stored
result set with no request issued precisely when the project's data file
exists and either no checkpoint total is recorded (missing checkpoint
file or missing `total` key) or the stored item count equals the
checkpoint's recorded total; the checkpoint cursor is never consulted. -/
theorem c4_short_circuit_amended (d : DiskState)
    (server : Nat → Option PageResp) (pid : String) (fuel : Nat) :
    ((is_complete d).1 = true ↔
      ∃ issues, d.dataFile = some issues ∧
        (d.ckpt.bind PC.total? = none ∨
          d.ckpt.bind PC.total? = some issues.length)) ∧
    ((is_complete d).1 = true →
      (fetch_issues server pid fuel d).1 = d.dataFile.getD [] ∧
      (fetch_issues server pid fuel d).2.trace = []) := by
  obtain ⟨df, ck⟩ := d
  constructor
  · cases df with
    | none => simp [is_complete]
    | some issues =>
      cases hc : ck.bind PC.total? with
      | none => simp [is_complete, hc]
      | some t =>
        by_cases he : issues.length = t
        · simp [is_complete, hc, he]
        · simp only [is_complete, hc, if_neg he]
          constructor
          · intro h
            simp at h
          · rintro ⟨issues2, hi, h | h⟩
            · simp at h
            · have h2 : issues = issues2 := by
                injection hi
              rw [← h2] at h
              injection h with ht
              exact absurd ht.symm he
  · intro h
    unfold fetch_issues
    rw [if_pos h]
    exact ⟨rfl, rfl⟩

/-- Witness for C4's amended theorem at a concrete input: a project with
one stored record and a checkpoint whose total is 1 is served from disk
with an empty request trace. -/
theorem c4_witness :
    (fetch_issues (fun _ => none) "p" 5
      ⟨some [⟨1, none, "a"⟩], some ⟨3, some 1⟩⟩).2.trace = [] :=
  ((c4_short_circuit_amended ⟨some [⟨1, none, "a"⟩], some ⟨3, some 1⟩⟩
    (fun _ => none) "p" 5).2 (by decide)).2

theorem fetchLoop_total (server : Nat → Option PageResp) (pid : String) :
    ∀ (fuel : Nat) (st : PState) (t : Nat), st.total = some t →
    (fetchLoop server pid fuel st).total = some t := by
  intro fuel
  induction fuel with
  | zero => intro st t h; exact h
  | succ fuel ih =>
    intro st t h
    rw [fetchLoop]
    split
    · exact h
    cases hs : server st.offset
    · exact h
    · rw [h]
      exact ih _ t rfl

theorem fetchFinish_total (st : PState) : (fetchFinish st).total = st.total := by
  rcases h : st.total with _ | t
  · simp [fetchFinish, h]
  · by_cases ha : st.acc.length = t <;> simp [fetchFinish, h, ha]

theorem fetchFinish_trace (st : PState) : (fetchFinish st).trace = st.trace := by
  rcases h : st.total with _ | t
  · simp [fetchFinish, h]
  · by_cases ha : st.acc.length = t <;> simp [fetchFinish, h, ha]

theorem range_offset_succ (off L m : Nat) :
    (List.range (m + 1)).map (fun k => off + k * L)
      = off :: (List.range m).map (fun k => off + L + k * L) := by
  rw [List.range_succ_eq_map, List.map_cons, List.map_map]
  refine congrArg₂ _ (by simp) ?_
  congr 1
  funext k
  simp [Function.comp, Nat.succ_mul]
  omega

theorem fetchLoop_trace (server : Nat → Option PageResp) (pid : String) :
    ∀ (fuel : Nat) (st : PState), ∃ n,
    (fetchLoop server pid fuel st).trace
      = st.trace ++ (List.range n).map (fun k => st.offset + k * LIMIT) := by
  intro fuel
  induction fuel with
  | zero => intro st; exact ⟨0, by simp [fetchLoop]⟩
  | succ fuel ih =>
    intro st
    rw [fetchLoop]
    split
    · exact ⟨0, by simp⟩
    split
    · exact ⟨0, by simp⟩
    · rename_i resp hs
      split
      · split
        · exact ⟨1, by simp [List.range_succ]⟩
        · rename_i h0
          obtain ⟨m, hm⟩ := ih
            { offset := st.offset + LIMIT,
              total := some resp.total_count,
              acc := st.acc ++ resp.issues.map (fun i => { i with pid? := some pid }),
              ckpt := some ⟨st.offset + LIMIT, some resp.total_count⟩,
              trace := st.trace ++ [st.offset],
              err := st.err }
          refine ⟨m + 1, ?_⟩
          rw [hm, range_offset_succ st.offset LIMIT m]
          simp
      · rename_i t ht
        obtain ⟨m, hm⟩ := ih
          { offset := st.offset + LIMIT,
            total := some t,
            acc := st.acc ++ resp.issues.map (fun i => { i with pid? := some pid }),
            ckpt := some ⟨st.offset + LIMIT, some t⟩,
            trace := st.trace ++ [st.offset],
            err := st.err }
        refine ⟨m + 1, ?_⟩
        rw [hm, range_offset_succ st.offset LIMIT m]
        simp

/-- Server oracle for the C6 scenario: a project holding 205 issues, so
the page at offset `off` carries `min 100 (205 - off)` records and
`total_count = 205`. -/
def server205 : Nat → Option PageResp :=
  fun off =>
    some ⟨(List.range (min 100 (205 - off))).map (fun k => ⟨off + k, none, ""⟩), 205⟩

/-- Server oracle reporting an empty project (`total_count = 0`). -/
def server0 : Nat → Option PageResp := fun _ => some ⟨[], 0⟩

set_option maxRecDepth 40000 in
/-- C6: in paginated mode `fetch_issues` requests offsets `0, L, 2L, ...`
(page size `LIMIT = 100`), captures `total_count` from the first
successful response, and for a fresh project with 205 items issues
exactly the 3 page requests `[0, 100, 200]`, accumulates 205 records,
deletes the checkpoint at completion, and raises no error; a zero total
on the very first page terminates after that single request without
error. -/
theorem c6_pagination (server : Nat → Option PageResp) (r : PageResp)
    (fuel : Nat) (pid : String) (hf : 1 ≤ fuel) (hr : server 0 = some r) :
    (fetch_issues server205 "p" 10 ⟨none, none⟩).2.trace = [0, 100, 200] ∧
    (fetch_issues server205 "p" 10 ⟨none, none⟩).1.length = 205 ∧
    (fetch_issues server205 "p" 10 ⟨none, none⟩).2.ckpt = none ∧
    (fetch_issues server205 "p" 10 ⟨none, none⟩).2.err = false ∧
    (fetch_issues server0 "p" 10 ⟨none, none⟩).2.trace = [0] ∧
    (fetch_issues server0 "p" 10 ⟨none, none⟩).1 = [] ∧
    (fetch_issues server0 "p" 10 ⟨none, none⟩).2.err = false ∧
    (∃ n, (fetch_issues server pid fuel ⟨none, none⟩).2.trace
      = (List.range n).map (fun k => k * LIMIT)) ∧
    (fetch_issues server pid fuel ⟨none, none⟩).2.total = some r.total_count := by
  refine ⟨by rfl, by rfl, by rfl, by rfl, by rfl, by rfl, by rfl, ?_, ?_⟩
  · have hsc : (fetch_issues server pid fuel ⟨none, none⟩).2
        = fetchFinish (fetchLoop server pid fuel ⟨0, none, [], none, [], false⟩) := rfl
    rw [hsc, fetchFinish_trace]
    obtain ⟨n, hn⟩ :=
      fetchLoop_trace server pid fuel ⟨0, none, [], none, [], false⟩
    refine ⟨n, ?_⟩
    rw [hn]
    simp
  · have hsc : (fetch_issues server pid fuel ⟨none, none⟩).2
        = fetchFinish (fetchLoop server pid fuel ⟨0, none, [], none, [], false⟩) := rfl
    rw [hsc, fetchFinish_total]
    cases fuel with
    | zero => exact absurd hf (by simp)
    | succ m =>
      rw [fetchLoop]
      have hps : pageStop ⟨0, none, [], none, [], false⟩ = false := rfl
      rw [hps]
      simp only [Bool.false_eq_true, if_false]
      rw [hr]
      by_cases h0 : r.total_count = 0
      · simp [h0]
      · simp only [h0, if_false]
        exact fetchLoop_total server pid m _ r.total_count rfl

/-- Witness for C6 at a concrete input. -/
theorem c6_witness :
    (fetch_issues server205 "p" 10 ⟨none, none⟩).2.total = some 205 :=
  (c6_pagination server205 ⟨(List.range 100).map (fun k => ⟨k, none, ""⟩), 205⟩
    10 "p" (by decide) (by rfl)).2.2.2.2.2.2.2.2

/-- A primitive file-system operation, as the OS sees a save: `open(path,
'w')` truncates the file (creating it if absent), `json.dump` then writes
the serialized text. -/
inductive FsOp where
  | truncate
  | write (s : String)
deriving DecidableEq, Repr

/-- Effect of one primitive operation on a file's content (`none` means
the file does not exist). -/
def applyOp (c : Option String) : FsOp → Option String
  | FsOp.truncate => some ""
  | FsOp.write s => some (c.getD "" ++ s)

/-- Running a sequence of primitive operations on a file. -/
def runOps (c : Option String) (ops : List FsOp) : Option String :=
  ops.foldl applyOp c

/-- `save_json` (download_redmine.py lines 37-39) and `save_checkpoint`
(download_individual_redmine_issues.py lines 71-73) both execute
`open(path, 'w')` followed by `json.dump` on the TARGET path itself: a
truncate of the prior content, then the write of the new serialization.
No temporary file or rename is involved. -/
def save_json_ops (data : String) : List FsOp :=
  [FsOp.truncate, FsOp.write data]

/-- C7 counterexample: interrupting a checkpoint save between the
truncate and the completed write leaves an empty file that is neither the
prior content `"OLD"` nor the new content `"NEW"` — the save is not
atomic with respect to interruption. -/
theorem c7_counterexample :
    ¬(runOps (some "OLD") ((save_json_ops "NEW").take 1) = some "OLD" ∨
      runOps (some "OLD") ((save_json_ops "NEW").take 1) = some "NEW") := by
  decide

/-- C7 (amended): checkpoint saves are a plain truncate-then-write of the
target file (no write-to-temp-then-rename): before the save the prior
content is intact, after the truncate alone the file is empty (the prior
version is already destroyed), and only after the final write does the
file hold the new content.  A crash between the two steps therefore
loses the previous checkpoint. -/
theorem c7_truncate_then_write (old : Option String) (data : String) :
    runOps old ((save_json_ops data).take 0) = old ∧
    runOps old ((save_json_ops data).take 1) = some "" ∧
    runOps old ((save_json_ops data).take 2) = some data := by
  refine ⟨rfl, rfl, ?_⟩
  show some ((some "").getD "" ++ data) = some data
  simp

/-- `merge_projects` (download_redmine.py lines 112-119): starts from an
empty master list and extends it with each project's stored result set,
in order, with no inspection of identifiers. -/
def merge_projects (datasets : List (List Issue)) : List Issue :=
  datasets.foldl (fun master data => master ++ data) []

theorem merge_projects_eq_join (datasets : List (List Issue)) :
    merge_projects datasets = datasets.flatten := by
  suffices h : ∀ (ds : List (List Issue)) (acc : List Issue),
      ds.foldl (fun master data => master ++ data) acc = acc ++ ds.flatten by
    simpa using h datasets []
  intro ds
  induction ds with
  | nil => intro acc; simp
  | cons d ds ih => intro acc; simp [ih]

/-- C8 counterexample: two project result sets that both contain a record
with identifier 1 are concatenated as-is — the merged master collection
contains the identifier twice, so duplicates by identifier are not
disallowed and no collision detection happens. -/
theorem c8_counterexample :
    ¬((merge_projects [[⟨1, some "a", "x"⟩], [⟨1, some "b", "y"⟩]]).map
        Issue.id).Nodup := by
  decide

/-- C8 (amended): the merger concatenates the per-project result sets in
order without any identifier-collision detection or overwriting: every
record of every input, duplicate identifiers included, appears in the
merged output, and the number of records carrying an identifier is the
sum over projects of that identifier's occurrences. -/
theorem c8_merge_no_dedup (datasets : List (List Issue)) (k : Nat) :
    ((merge_projects datasets).map Issue.id).count k
      = (datasets.map (fun l => (l.map Issue.id).count k)).sum := by
  rw [merge_projects_eq_join]
  induction datasets with
  | nil => rfl
  | cons d ds ih =>
    simp only [List.flatten_cons, List.map_append, List.count_append,
      List.map_cons, List.sum_cons, ih]

/-- A JSON-ish Python value as handled by the anonymizer: `None`,
integers (restricted to the nonnegative Redmine user identifiers),
strings, lists, and dicts modelled as ordered association lists (Python
dicts preserve insertion order and have unique keys). -/
inductive UVal where
  | vNone
  | vInt (n : Nat)
  | vStr (s : String)
  | vList (xs : List UVal)
  | vDict (d : List (String × UVal))
deriving Repr

/-- Python equality of a value against a string literal, used for the
membership test `'id' in someList`. -/
def isStrVal (t : String) : UVal → Bool
  | UVal.vStr s => s == t
  | _ => false

/-- Python dict read, `d[k]` / `k in d`. -/
def dictGet : List (String × UVal) → String → Option UVal
  | [], _ => none
  | p :: ps, k => if p.1 = k then some p.2 else dictGet ps k

/-- Python dict write `d[k] = v`: update in place preserving insertion
order, appending when the key is new. -/
def dictSet : List (String × UVal) → String → UVal → List (String × UVal)
  | [], k, v => [(k, v)]
  | p :: ps, k, v => if p.1 = k then (k, v) :: ps else p :: dictSet ps k v

/-- Python truthiness for the values above. -/
def truthy : UVal → Bool
  | UVal.vNone => false
  | UVal.vInt n => n != 0
  | UVal.vStr s => s != ""
  | UVal.vList xs => !xs.isEmpty
  | UVal.vDict d => !d.isEmpty

def charsStartWith : List Char → List Char → Bool
  | [], _ => true
  | _ :: _, [] => false
  | a :: as, b :: bs => a == b && charsStartWith as bs

def charsHaveSub (pat : List Char) : List Char → Bool
  | [] => charsStartWith pat []
  | c :: cs => charsStartWith pat (c :: cs) || charsHaveSub pat cs

/-- Python's `pat in s` on strings: substring containment. -/
def strHasSub (s pat : String) : Bool := charsHaveSub pat.toList s.toList

/-- The anonymizer's in-memory mapping: user id to (original name value,
anonymous name).  Python uses a dict keyed by the numeric id, mutated in
place; insertion order is preserved. -/
abbrev Mapping := List (Nat × UVal × String)

def mlookup : Mapping → Nat → Option (UVal × String)
  | [], _ => none
  | e :: es, k => if e.1 = k then some e.2 else mlookup es k

/-- Decimal zero-padding to width 5, as Python's format `{:05d}` on a
nonnegative integer. -/
def zeroPad5 (s : String) : String :=
  String.mk (List.replicate (5 - s.length) '0') ++ s

/-- `generate_anonymous_name` (lines 10-12): `f"User_{user_id:05d}"` — a
function of the numeric identifier only. -/
def generate_anonymous_name (uid : Nat) : String :=
  "User_" ++ zeroPad5 (Nat.repr uid)

/-- `anonymize_user` (lines 15-34).  `none` models an uncaught Python
exception (the `'id' not in user_obj` membership test on an int or
`None`, indexing a non-dict, or formatting a non-integer id). -/
def anonymize_user (u : UVal) (m : Mapping) : Option (UVal × Mapping) :=
  match u with
  | UVal.vNone => some (u, m)
  | UVal.vInt n => if n = 0 then some (u, m) else none
  | UVal.vStr s =>
    if s = "" then some (u, m)
    else if strHasSub s "id" then none else some (u, m)
  | UVal.vList xs =>
    if xs.isEmpty then some (u, m)
    else if xs.any (isStrVal "id") then none else some (u, m)
  | UVal.vDict d =>
    if d.isEmpty then some (u, m)
    else
      match dictGet d "id" with
      | none => some (u, m)
      | some (UVal.vInt uid) =>
        match mlookup (if (mlookup m uid).isSome then m
            else m ++ [(uid, (dictGet d "name").getD (UVal.vStr "Unknown"),
              generate_anonymous_name uid)]) uid with
        | some pr =>
          some (UVal.vDict [("id", UVal.vInt uid), ("name", UVal.vStr pr.2)],
            if (mlookup m uid).isSome then m
            else m ++ [(uid, (dictGet d "name").getD (UVal.vStr "Unknown"),
              generate_anonymous_name uid)])
        | none => none
      | some _ => none

/-- One `issue[field] = anonymize_user(issue[field], mapping)` step of
`anonymize_issue` (lines 39-41), guarded by `if issue.get(field):`. -/
def procField (field : String) (d : List (String × UVal)) (m : Mapping) :
    Option (List (String × UVal) × Mapping) :=
  if truthy ((dictGet d field).getD UVal.vNone) then
    match anonymize_user ((dictGet d field).getD UVal.vNone) m with
    | some (v', m') => some (dictSet d field v', m')
    | none => none
  else some (d, m)

/-- One iteration of the journal loop (lines 44-46): `'user' in journal
and journal['user']` guards the call; non-dict journals raise on the
membership test or on the indexing. -/
def procJournal (j : UVal) (m : Mapping) : Option (UVal × Mapping) :=
  match j with
  | UVal.vDict jd =>
    match dictGet jd "user" with
    | some uv =>
      if truthy uv then
        match anonymize_user uv m with
        | some (u', m') => some (UVal.vDict (dictSet jd "user" u'), m')
        | none => none
      else some (j, m)
    | none => some (j, m)
  | UVal.vNone => none
  | UVal.vInt _ => none
  | UVal.vStr s => if strHasSub s "user" then none else some (j, m)
  | UVal.vList xs => if xs.any (isStrVal "user") then none else some (j, m)

def procJournals : List UVal → Mapping → Option (List UVal × Mapping)
  | [], m => some ([], m)
  | j :: js, m =>
    match procJournal j m with
    | some (j', m1) =>
      match procJournals js m1 with
      | some (js', m2) => some (j' :: js', m2)
      | none => none
    | none => none

/-- The watcher guard (line 50): `isinstance(watcher, dict) and 'id' in
watcher`. -/
def isQualWatcher : UVal → Bool
  | UVal.vDict d => (dictGet d "id").isSome
  | _ => false

/-- The watcher loop (lines 48-51): qualifying entries are replaced by
their anonymization, all others are left in place. -/
def procWatchers : List UVal → Mapping → Option (List UVal × Mapping)
  | [], m => some ([], m)
  | w :: ws, m =>
    if isQualWatcher w then
      match anonymize_user w m with
      | some (w', m1) =>
        match procWatchers ws m1 with
        | some (ws', m2) => some (w' :: ws', m2)
        | none => none
      | none => none
    else
      match procWatchers ws m with
      | some (ws', m2) => some (w :: ws', m2)
      | none => none

/-- The journals stage of `anonymize_issue` (lines 43-46): only entered
when the `journals` key holds a list. -/
def procJournalsField (d : List (String × UVal)) (m : Mapping) :
    Option (List (String × UVal) × Mapping) :=
  match dictGet d "journals" with
  | some (UVal.vList js) =>
    match procJournals js m with
    | some (js', m') => some (dictSet d "journals" (UVal.vList js'), m')
    | none => none
  | _ => some (d, m)

/-- The watchers stage of `anonymize_issue` (lines 48-51). -/
def procWatchersField (d : List (String × UVal)) (m : Mapping) :
    Option (List (String × UVal) × Mapping) :=
  match dictGet d "watchers" with
  | some (UVal.vList ws) =>
    match procWatchers ws m with
    | some (ws', m') => some (dictSet d "watchers" (UVal.vList ws'), m')
    | none => none
  | _ => some (d, m)

/-- `anonymize_issue` (lines 37-53): anonymize `author` and
`assigned_to` when truthy, then each journal's `user`, then each
qualifying watcher; everything else is untouched.  `none` models an
uncaught exception (e.g. a non-dict issue, whose `.get` raises). -/
def anonymize_issue (iss : UVal) (m : Mapping) : Option (UVal × Mapping) :=
  match iss with
  | UVal.vDict d0 =>
    match procField "author" d0 m with
    | some (d1, m1) =>
      match procField "assigned_to" d1 m1 with
      | some (d2, m2) =>
        match procJournalsField d2 m2 with
        | some (d3, m3) =>
          match procWatchersField d3 m3 with
          | some (d4, m4) => some (UVal.vDict d4, m4)
          | none => none
        | none => none
      | none => none
    | none => none
  | _ => none

/-- The numeric identifier of a user-reference object, when present. -/
def occId : UVal → Option Nat
  | UVal.vDict d =>
    match dictGet d "id" with
    | some (UVal.vInt uid) => some uid
    | _ => none
  | _ => none

/-- `user_obj.get('name', 'Unknown')` for a user-reference object. -/
def occName : UVal → UVal
  | UVal.vDict d => (dictGet d "name").getD (UVal.vStr "Unknown")
  | _ => UVal.vNone

/-- The `name` field of a user-reference object. -/
def getName : UVal → Option UVal
  | UVal.vDict d => dictGet d "name"
  | _ => none

def fieldOcc (field : String) (d : List (String × UVal)) : List UVal :=
  if truthy ((dictGet d field).getD UVal.vNone) then
    [(dictGet d field).getD UVal.vNone]
  else []

def journalOcc : UVal → List UVal
  | UVal.vDict jd =>
    match dictGet jd "user" with
    | some uv => if truthy uv then [uv] else []
    | none => []
  | _ => []

def watcherOcc (w : UVal) : List UVal := if isQualWatcher w then [w] else []

def journalsOcc (d : List (String × UVal)) : List UVal :=
  match dictGet d "journals" with
  | some (UVal.vList js) => (js.map journalOcc).flatten
  | _ => []

def watchersOcc (d : List (String × UVal)) : List UVal :=
  match dictGet d "watchers" with
  | some (UVal.vList ws) => (ws.map watcherOcc).flatten
  | _ => []

/-- The user-reference objects of an issue, in exactly the order
`anonymize_issue` feeds them to `anonymize_user`: author, assignee,
journal users in journal order, qualifying watchers in list order. -/
def occList : UVal → List UVal
  | UVal.vDict d =>
    fieldOcc "author" d ++ fieldOcc "assigned_to" d ++ journalsOcc d ++ watchersOcc d
  | _ => []

/-- The mapping state threaded through a sequence of `anonymize_user`
calls. -/
def mFold : Mapping → List UVal → Option Mapping
  | m, [] => some m
  | m, u :: us =>
    match anonymize_user u m with
    | some (_, m') => mFold m' us
    | none => none

/-- Well-formedness of the mapping: unique identifiers (exactly one
entry per identifier) and every stored pseudonym is the generated name
of its identifier. -/
def MappingInv (m : Mapping) : Prop :=
  (m.map (fun e => e.1)).Nodup ∧
  ∀ e ∈ m, e.2.2 = generate_anonymous_name e.1

theorem mlookup_append_left (m l : Mapping) (k : Nat) (v : UVal × String)
    (h : mlookup m k = some v) : mlookup (m ++ l) k = some v := by
  induction m with
  | nil => simp [mlookup] at h
  | cons e es ih =>
    by_cases he : e.1 = k
    · simpa [mlookup, he] using h
    · rw [mlookup, if_neg he] at h
      simpa [mlookup, he] using ih h

theorem mlookup_append_of_none (m l : Mapping) (k : Nat)
    (h : mlookup m k = none) : mlookup (m ++ l) k = mlookup l k := by
  induction m with
  | nil => rfl
  | cons e es ih =>
    by_cases he : e.1 = k
    · simp [mlookup, he] at h
    · rw [mlookup, if_neg he] at h
      simpa [mlookup, he] using ih h

theorem mlookup_none_notmem (m : Mapping) (k : Nat)
    (h : mlookup m k = none) : k ∉ m.map (fun e => e.1) := by
  induction m with
  | nil => simp
  | cons e es ih =>
    by_cases he : e.1 = k
    · simp [mlookup, he] at h
    · rw [mlookup, if_neg he] at h
      simp [he, ih h]
      exact fun hc => he hc.symm

theorem mlookup_mem (m : Mapping) (k : Nat) (v : UVal × String)
    (h : mlookup m k = some v) : (k, v) ∈ m := by
  induction m with
  | nil => simp [mlookup] at h
  | cons e es ih =>
    by_cases he : e.1 = k
    · rw [mlookup, if_pos he] at h
      have hv : e.2 = v := by injection h
      have he2 : e = (k, v) := by
        obtain ⟨e1, e2⟩ := e
        simp only at he hv
        simp [he, hv]
      rw [← he2]
      exact List.mem_cons_self _ _
    · rw [mlookup, if_neg he] at h
      exact List.mem_cons_of_mem _ (ih h)

theorem dictGet_dictSet_self (d : List (String × UVal)) (k : String) (v : UVal) :
    dictGet (dictSet d k v) k = some v := by
  induction d with
  | nil => simp [dictSet, dictGet]
  | cons p ps ih =>
    by_cases hp : p.1 = k
    · simp [dictSet, hp, dictGet]
    · simp [dictSet, hp, dictGet, ih]

theorem dictGet_dictSet_ne (d : List (String × UVal)) (k k' : String) (v : UVal)
    (h : k ≠ k') : dictGet (dictSet d k v) k' = dictGet d k' := by
  induction d with
  | nil => simp [dictSet, dictGet, h]
  | cons p ps ih =>
    by_cases hp : p.1 = k
    · have hne : p.1 ≠ k' := fun he => h (hp.symm.trans he)
      simp [dictSet, hp, dictGet, hne, h]
    · by_cases hp' : p.1 = k'
      · simp [dictSet, hp, dictGet, hp', Ne.symm h]
      · simp [dictSet, hp, dictGet, hp', ih]

theorem dictGet_some_not_isEmpty (d : List (String × UVal)) (k : String)
    (v : UVal) (h : dictGet d k = some v) : d.isEmpty = false := by
  cases d with
  | nil => simp [dictGet] at h
  | cons p ps => rfl

/-- `anonymize_user` on an object without a numeric identifier returns
the object and the mapping unchanged (when it does not raise). -/
theorem au_unchanged (u : UVal) (m : Mapping) (r : UVal) (m' : Mapping)
    (hocc : occId u = none) (h : anonymize_user u m = some (r, m')) :
    r = u ∧ m' = m := by
  cases u with
  | vNone =>
    rw [anonymize_user] at h
    exact ⟨by injection h with h1; exact (congrArg Prod.fst h1).symm,
      by injection h with h1; exact (congrArg Prod.snd h1).symm⟩
  | vInt n =>
    rw [anonymize_user] at h
    by_cases hn : n = 0
    · rw [if_pos hn] at h
      injection h with h1
      exact ⟨(congrArg Prod.fst h1).symm, (congrArg Prod.snd h1).symm⟩
    · rw [if_neg hn] at h
      exact absurd h (by simp)
  | vStr s =>
    rw [anonymize_user] at h
    by_cases hs : s = ""
    · rw [if_pos hs] at h
      injection h with h1
      exact ⟨(congrArg Prod.fst h1).symm, (congrArg Prod.snd h1).symm⟩
    · rw [if_neg hs] at h
      by_cases hsub : strHasSub s "id"
      · rw [if_pos hsub] at h
        exact absurd h (by simp)
      · rw [if_neg hsub] at h
        injection h with h1
        exact ⟨(congrArg Prod.fst h1).symm, (congrArg Prod.snd h1).symm⟩
  | vList xs =>
    rw [anonymize_user] at h
    by_cases hs : xs.isEmpty
    · rw [if_pos hs] at h
      injection h with h1
      exact ⟨(congrArg Prod.fst h1).symm, (congrArg Prod.snd h1).symm⟩
    · rw [if_neg hs] at h
      by_cases hsub : xs.any (isStrVal "id")
      · rw [if_pos hsub] at h
        exact absurd h (by simp)
      · rw [if_neg hsub] at h
        injection h with h1
        exact ⟨(congrArg Prod.fst h1).symm, (congrArg Prod.snd h1).symm⟩
  | vDict d =>
    rw [anonymize_user] at h
    by_cases hs : d.isEmpty
    · rw [if_pos hs] at h
      injection h with h1
      exact ⟨(congrArg Prod.fst h1).symm, (congrArg Prod.snd h1).symm⟩
    · rw [if_neg hs] at h
      cases hg : dictGet d "id" with
      | none =>
        rw [hg] at h
        injection h with h1
        exact ⟨(congrArg Prod.fst h1).symm, (congrArg Prod.snd h1).symm⟩
      | some v =>
        cases v with
        | vInt uid =>
          exfalso
          rw [occId, hg] at hocc
          simp at hocc
        | vNone => rw [hg] at h; exact absurd h (by simp)
        | vStr s => rw [hg] at h; exact absurd h (by simp)
        | vList xs => rw [hg] at h; exact absurd h (by simp)
        | vDict dd => rw [hg] at h; exact absurd h (by simp)

/-- `anonymize_user` on an object carrying numeric identifier `uid`:
insert-if-absent into the mapping (first occurrence wins), and return
the two-field reference `{id, name}` whose name is the stored
pseudonym. -/
theorem au_with_id (u : UVal) (m : Mapping) (r : UVal) (m' : Mapping)
    (uid : Nat) (hocc : occId u = some uid)
    (h : anonymize_user u m = some (r, m')) :
    m' = (if (mlookup m uid).isSome then m
      else m ++ [(uid, occName u, generate_anonymous_name uid)]) ∧
    ∃ pr, mlookup m' uid = some pr ∧
      r = UVal.vDict [("id", UVal.vInt uid), ("name", UVal.vStr pr.2)] := by
  cases u with
  | vNone => simp [occId] at hocc
  | vInt n => simp [occId] at hocc
  | vStr s => simp [occId] at hocc
  | vList xs => simp [occId] at hocc
  | vDict d =>
    rw [occId] at hocc
    cases hg : dictGet d "id" with
    | none => rw [hg] at hocc; simp at hocc
    | some v =>
      cases v with
      | vNone => rw [hg] at hocc; simp at hocc
      | vStr s => rw [hg] at hocc; simp at hocc
      | vList xs => rw [hg] at hocc; simp at hocc
      | vDict dd => rw [hg] at hocc; simp at hocc
      | vInt uid0 =>
        rw [hg] at hocc
        simp only [Option.some.injEq] at hocc
        subst hocc
        have hne : d.isEmpty = false := dictGet_some_not_isEmpty d "id" _ hg
        rw [anonymize_user, hne] at h
        simp only [Bool.false_eq_true, if_false] at h
        rw [hg] at h
        replace h : (match mlookup (if (mlookup m uid0).isSome then m
            else m ++ [(uid0, (dictGet d "name").getD (UVal.vStr "Unknown"),
              generate_anonymous_name uid0)]) uid0 with
          | some pr =>
            some (UVal.vDict [("id", UVal.vInt uid0), ("name", UVal.vStr pr.2)],
              if (mlookup m uid0).isSome then m
              else m ++ [(uid0, (dictGet d "name").getD (UVal.vStr "Unknown"),
                generate_anonymous_name uid0)])
          | none => none) = some (r, m') := h
        cases hl : mlookup (if (mlookup m uid0).isSome then m
            else m ++ [(uid0, (dictGet d "name").getD (UVal.vStr "Unknown"),
              generate_anonymous_name uid0)]) uid0 with
        | none => rw [hl] at h; exact absurd h (by simp)
        | some pr =>
          rw [hl] at h
          injection h with h1
          have hfst := congrArg Prod.fst h1
          have hsnd := congrArg Prod.snd h1
          simp only at hfst hsnd
          refine ⟨?_, pr, ?_, hfst.symm⟩
          · rw [← hsnd]
            simp [occName]
          · rw [← hsnd]
            exact hl

theorem au_inv (u : UVal) (m : Mapping) (r : UVal) (m' : Mapping)
    (hm : MappingInv m) (h : anonymize_user u m = some (r, m')) :
    MappingInv m' := by
  cases hocc : occId u with
  | none => rw [(au_unchanged u m r m' hocc h).2]; exact hm
  | some uid =>
    obtain ⟨hm', _⟩ := au_with_id u m r m' uid hocc h
    rw [hm']
    by_cases hl : (mlookup m uid).isSome
    · rw [if_pos hl]; exact hm
    · rw [if_neg hl]
      obtain ⟨hnd, hgen⟩ := hm
      have huid : mlookup m uid = none := by
        cases hmu : mlookup m uid
        · rfl
        · rw [hmu] at hl; simp at hl
      constructor
      · rw [List.map_append, List.nodup_append]
        refine ⟨hnd, by simp, ?_⟩
        intro a ha hb
        simp at hb
        rw [hb] at ha
        exact mlookup_none_notmem m uid huid ha
      · intro e he
        rcases List.mem_append.mp he with h1 | h1
        · exact hgen e h1
        · simp at h1
          subst h1
          rfl

theorem au_mono (u : UVal) (m : Mapping) (r : UVal) (m' : Mapping)
    (h : anonymize_user u m = some (r, m')) (k : Nat) (v : UVal × String)
    (hk : mlookup m k = some v) : mlookup m' k = some v := by
  cases hocc : occId u with
  | none => rw [(au_unchanged u m r m' hocc h).2]; exact hk
  | some uid =>
    obtain ⟨hm', _⟩ := au_with_id u m r m' uid hocc h
    rw [hm']
    by_cases hl : (mlookup m uid).isSome
    · rw [if_pos hl]; exact hk
    · rw [if_neg hl]
      exact mlookup_append_left _ _ _ _ hk

theorem au_none_preserved (u : UVal) (m : Mapping) (r : UVal) (m' : Mapping)
    (uid : Nat) (h : anonymize_user u m = some (r, m'))
    (hk : mlookup m uid = none) (hne : occId u ≠ some uid) :
    mlookup m' uid = none := by
  cases hocc : occId u with
  | none => rw [(au_unchanged u m r m' hocc h).2]; exact hk
  | some uid0 =>
    have hne0 : uid0 ≠ uid := fun he => hne (by rw [hocc, he])
    obtain ⟨hm', _⟩ := au_with_id u m r m' uid0 hocc h
    rw [hm']
    by_cases hl : (mlookup m uid0).isSome
    · rw [if_pos hl]; exact hk
    · rw [if_neg hl]
      rw [mlookup_append_of_none _ _ _ hk]
      simp [mlookup, hne0]

theorem au_truthy (u : UVal) (m : Mapping) (r : UVal) (m' : Mapping)
    (ht : truthy u = true) (h : anonymize_user u m = some (r, m')) :
    truthy r = true := by
  cases hocc : occId u with
  | none => rw [(au_unchanged u m r m' hocc h).1]; exact ht
  | some uid =>
    obtain ⟨_, pr, _, hr⟩ := au_with_id u m r m' uid hocc h
    rw [hr]
    rfl

/-- Every anonymized reference carries the generated pseudonym of its
own identifier as its name. -/
theorem au_out_name (u : UVal) (m : Mapping) (r : UVal) (m' : Mapping)
    (hm : MappingInv m) (h : anonymize_user u m = some (r, m'))
    (uid : Nat) (hocc : occId r = some uid) :
    getName r = some (UVal.vStr (generate_anonymous_name uid)) := by
  cases hou : occId u with
  | none =>
    obtain ⟨hr, _⟩ := au_unchanged u m r m' hou h
    rw [hr, hou] at hocc
    simp at hocc
  | some uid0 =>
    obtain ⟨_, pr, hpl, hr⟩ := au_with_id u m r m' uid0 hou h
    have hinv' := au_inv u m r m' hm h
    have hgen := hinv'.2 _ (mlookup_mem _ _ _ hpl)
    simp only at hgen
    rw [hr, occId] at hocc
    simp [dictGet] at hocc
    rw [hr, getName]
    simp [dictGet]
    rw [← hocc]
    exact hgen

/-- An occurrence whose name is the generated pseudonym of its own
identifier. -/
def OutOcc (u : UVal) : Prop :=
  ∀ uid, occId u = some uid →
    getName u = some (UVal.vStr (generate_anonymous_name uid))

theorem mFold_inv : ∀ (us : List UVal) (m m' : Mapping),
    MappingInv m → mFold m us = some m' → MappingInv m' := by
  intro us
  induction us with
  | nil =>
    intro m m' hm h
    rw [mFold] at h
    injection h with h1
    rw [← h1]
    exact hm
  | cons u us ih =>
    intro m m' hm h
    rw [mFold, ] at h
    cases ha : anonymize_user u m with
    | none => rw [ha] at h; exact absurd h (by simp)
    | some p =>
      rw [ha] at h
      replace h : mFold p.2 us = some m' := h
      exact ih p.2 m' (au_inv u m p.1 p.2 hm (by rw [ha])) h

theorem mFold_mono : ∀ (us : List UVal) (m m' : Mapping),
    mFold m us = some m' → ∀ (k : Nat) (v : UVal × String),
    mlookup m k = some v → mlookup m' k = some v := by
  intro us
  induction us with
  | nil =>
    intro m m' h k v hk
    rw [mFold] at h
    injection h with h1
    rw [← h1]
    exact hk
  | cons u us ih =>
    intro m m' h k v hk
    rw [mFold] at h
    cases ha : anonymize_user u m with
    | none => rw [ha] at h; exact absurd h (by simp)
    | some p =>
      rw [ha] at h
      replace h : mFold p.2 us = some m' := h
      exact ih p.2 m' h k v (au_mono u m p.1 p.2 (by rw [ha]) k v hk)

theorem mFold_append_of (a b : List UVal) (m m1 m2 : Mapping)
    (h1 : mFold m a = some m1) (h2 : mFold m1 b = some m2) :
    mFold m (a ++ b) = some m2 := by
  induction a generalizing m with
  | nil =>
    rw [mFold] at h1
    injection h1 with h
    rw [List.nil_append, h]
    exact h2
  | cons u us ih =>
    rw [mFold] at h1
    cases ha : anonymize_user u m with
    | none => rw [ha] at h1; exact absurd h1 (by simp)
    | some p =>
      rw [ha] at h1
      replace h1 : mFold p.2 us = some m1 := h1
      rw [List.cons_append, mFold, ha]
      exact ih p.2 h1

theorem mFold_first (uid : Nat) : ∀ (us : List UVal) (m m' : Mapping),
    mFold m us = some m' → mlookup m uid = none →
    mlookup m' uid = ((us.find? (fun u => occId u == some uid)).map
      (fun u => (occName u, generate_anonymous_name uid))) := by
  intro us
  induction us with
  | nil =>
    intro m m' h hm
    rw [mFold] at h
    injection h with h1
    rw [← h1]
    simpa using hm
  | cons u us ih =>
    intro m m' h hm
    rw [mFold] at h
    cases ha : anonymize_user u m with
    | none => rw [ha] at h; exact absurd h (by simp)
    | some p =>
      rw [ha] at h
      replace h : mFold p.2 us = some m' := h
      by_cases hb : occId u = some uid
      · rw [List.find?_cons_of_pos _ (by simp [hb])]
        obtain ⟨hm2, _⟩ := au_with_id u m p.1 p.2 uid hb (by rw [ha])
        have hl1 : mlookup p.2 uid
            = some (occName u, generate_anonymous_name uid) := by
          rw [hm2, if_neg (by rw [hm]; simp)]
          rw [mlookup_append_of_none _ _ _ hm]
          simp [mlookup]
        simpa using mFold_mono us p.2 m' h uid _ hl1
      · rw [List.find?_cons_of_neg _ (by simp [hb])]
        exact ih p.2 m' h
          (au_none_preserved u m p.1 p.2 uid (by rw [ha]) hm hb)

theorem procField_spec (field : String) (d : List (String × UVal))
    (m : Mapping) (d' : List (String × UVal)) (m' : Mapping)
    (hm : MappingInv m) (h : procField field d m = some (d', m')) :
    mFold m (fieldOcc field d) = some m' ∧
    MappingInv m' ∧
    (∀ u ∈ fieldOcc field d', OutOcc u) ∧
    (∀ k, k ≠ field → dictGet d' k = dictGet d k) := by
  rw [procField] at h
  by_cases ht : truthy ((dictGet d field).getD UVal.vNone)
  · rw [if_pos ht] at h
    cases ha : anonymize_user ((dictGet d field).getD UVal.vNone) m with
    | none => rw [ha] at h; exact absurd h (by simp)
    | some p =>
      rw [ha] at h
      replace h : some ((dictSet d field p.1, p.2) :
          List (String × UVal) × Mapping) = some (d', m') := h
      injection h with h1
      have hd : d' = dictSet d field p.1 := (congrArg Prod.fst h1).symm
      have hmm : m' = p.2 := (congrArg Prod.snd h1).symm
      subst hd
      subst hmm
      refine ⟨?_, ?_, ?_, ?_⟩
      · rw [fieldOcc, if_pos ht, mFold, ha]
        rfl
      · exact au_inv _ _ _ _ hm (by rw [ha])
      · intro u hu
        rw [fieldOcc, dictGet_dictSet_self] at hu
        have htp : truthy p.1 = true := au_truthy _ _ _ _ ht (by rw [ha])
        rw [show ((some p.1).getD UVal.vNone) = p.1 from rfl, if_pos htp] at hu
        simp at hu
        subst hu
        intro uid hocc
        exact au_out_name _ _ _ _ hm (by rw [ha]) uid hocc
      · intro k hk
        exact dictGet_dictSet_ne d field k p.1 (Ne.symm hk)
  · rw [if_neg ht] at h
    injection h with h1
    have hd : d' = d := (congrArg Prod.fst h1).symm
    have hmm : m' = m := (congrArg Prod.snd h1).symm
    subst hd
    subst hmm
    refine ⟨?_, hm, ?_, fun k _ => rfl⟩
    · rw [fieldOcc, if_neg ht]
      rfl
    · intro u hu
      rw [fieldOcc, if_neg ht] at hu
      simp at hu

theorem procJournal_spec (j : UVal) (m : Mapping) (j' : UVal) (m' : Mapping)
    (hm : MappingInv m) (h : procJournal j m = some (j', m')) :
    mFold m (journalOcc j) = some m' ∧ MappingInv m' ∧
    (∀ u ∈ journalOcc j', OutOcc u) := by
  cases j with
  | vNone => rw [procJournal] at h; exact absurd h (by simp)
  | vInt n => rw [procJournal] at h; exact absurd h (by simp)
  | vStr s =>
    rw [procJournal] at h
    by_cases hs : strHasSub s "user"
    · rw [if_pos hs] at h
      exact absurd h (by simp)
    · rw [if_neg hs] at h
      injection h with h1
      have hj : j' = UVal.vStr s := (congrArg Prod.fst h1).symm
      have hmm : m' = m := (congrArg Prod.snd h1).symm
      subst hj
      subst hmm
      exact ⟨rfl, hm, fun u hu => absurd hu (by simp [journalOcc])⟩
  | vList xs =>
    rw [procJournal] at h
    by_cases hs : xs.any (isStrVal "user")
    · rw [if_pos hs] at h
      exact absurd h (by simp)
    · rw [if_neg hs] at h
      injection h with h1
      have hj : j' = UVal.vList xs := (congrArg Prod.fst h1).symm
      have hmm : m' = m := (congrArg Prod.snd h1).symm
      subst hj
      subst hmm
      exact ⟨rfl, hm, fun u hu => absurd hu (by simp [journalOcc])⟩
  | vDict jd =>
    rw [procJournal] at h
    cases hg : dictGet jd "user" with
    | none =>
      rw [hg] at h
      injection h with h1
      have hj : j' = UVal.vDict jd := (congrArg Prod.fst h1).symm
      have hmm : m' = m := (congrArg Prod.snd h1).symm
      subst hj
      subst hmm
      refine ⟨by rw [journalOcc, hg]; rfl, hm, ?_⟩
      intro u hu
      rw [journalOcc, hg] at hu
      simp at hu
    | some uv =>
      rw [hg] at h
      replace h : (if truthy uv then
          match anonymize_user uv m with
          | some (u', m') => some (UVal.vDict (dictSet jd "user" u'), m')
          | none => none
        else some (UVal.vDict jd, m)) = some (j', m') := h
      by_cases ht : truthy uv
      · rw [if_pos ht] at h
        cases ha : anonymize_user uv m with
        | none => rw [ha] at h; exact absurd h (by simp)
        | some p =>
          rw [ha] at h
          replace h : some ((UVal.vDict (dictSet jd "user" p.1), p.2) :
              UVal × Mapping) = some (j', m') := h
          injection h with h1
          have hj : j' = UVal.vDict (dictSet jd "user" p.1) :=
            (congrArg Prod.fst h1).symm
          have hmm : m' = p.2 := (congrArg Prod.snd h1).symm
          subst hj
          subst hmm
          refine ⟨?_, au_inv _ _ _ _ hm (by rw [ha]), ?_⟩
          · rw [journalOcc, hg]
            show mFold m (if truthy uv then [uv] else []) = some p.2
            rw [if_pos ht, mFold, ha]
            rfl
          · intro u hu
            rw [journalOcc, dictGet_dictSet_self] at hu
            have htp : truthy p.1 = true := au_truthy _ _ _ _ ht (by rw [ha])
            replace hu : u ∈ (if truthy p.1 then [p.1] else []) := hu
            rw [if_pos htp] at hu
            simp at hu
            subst hu
            intro uid hocc
            exact au_out_name _ _ _ _ hm (by rw [ha]) uid hocc
      · rw [if_neg ht] at h
        injection h with h1
        have hj : j' = UVal.vDict jd := (congrArg Prod.fst h1).symm
        have hmm : m' = m := (congrArg Prod.snd h1).symm
        subst hj
        subst hmm
        refine ⟨?_, hm, ?_⟩
        · rw [journalOcc, hg]
          show mFold _ (if truthy uv then [uv] else []) = some _
          rw [if_neg ht]
          rfl
        · intro u hu
          rw [journalOcc, hg] at hu
          replace hu : u ∈ (if truthy uv then [uv] else []) := hu
          rw [if_neg ht] at hu
          simp at hu

theorem procJournals_spec : ∀ (js : List UVal) (m : Mapping)
    (js' : List UVal) (m' : Mapping), MappingInv m →
    procJournals js m = some (js', m') →
    mFold m ((js.map journalOcc).flatten) = some m' ∧ MappingInv m' ∧
    (∀ u ∈ (js'.map journalOcc).flatten, OutOcc u) := by
  intro js
  induction js with
  | nil =>
    intro m js' m' hm h
    rw [procJournals] at h
    injection h with h1
    have hj : js' = [] := (congrArg Prod.fst h1).symm
    have hmm : m' = m := (congrArg Prod.snd h1).symm
    subst hj
    subst hmm
    exact ⟨rfl, hm, fun u hu => absurd hu (by simp)⟩
  | cons j js ih =>
    intro m js' m' hm h
    rw [procJournals] at h
    cases h1 : procJournal j m with
    | none => rw [h1] at h; exact absurd h (by simp)
    | some p =>
      rw [h1] at h
      replace h : (match procJournals js p.2 with
        | some (js', m2) => some (p.1 :: js', m2)
        | none => none) = some (js', m') := h
      cases h2 : procJournals js p.2 with
      | none => rw [h2] at h; exact absurd h (by simp)
      | some q =>
        rw [h2] at h
        injection h with h3
        have hj : js' = p.1 :: q.1 := (congrArg Prod.fst h3).symm
        have hmm : m' = q.2 := (congrArg Prod.snd h3).symm
        subst hj
        subst hmm
        have spec1 := procJournal_spec j m p.1 p.2 hm (by rw [h1])
        have spec2 := ih p.2 q.1 q.2 spec1.2.1 (by rw [h2])
        refine ⟨?_, spec2.2.1, ?_⟩
        · simp only [List.map_cons, List.flatten_cons]
          exact mFold_append_of _ _ m p.2 q.2 spec1.1 spec2.1
        · intro u hu
          simp only [List.map_cons, List.flatten_cons, List.mem_append] at hu
          rcases hu with hu | hu
          · exact spec1.2.2 u hu
          · exact spec2.2.2 u hu

theorem au_qual_occId (w : UVal) (m : Mapping) (p : UVal × Mapping)
    (hq : isQualWatcher w = true) (h : anonymize_user w m = some p) :
    ∃ uid, occId w = some uid := by
  cases w with
  | vNone => simp [isQualWatcher] at hq
  | vInt n => simp [isQualWatcher] at hq
  | vStr s => simp [isQualWatcher] at hq
  | vList xs => simp [isQualWatcher] at hq
  | vDict d =>
    rw [isQualWatcher] at hq
    cases hg : dictGet d "id" with
    | none => rw [hg] at hq; simp at hq
    | some v =>
      cases v with
      | vInt uid => exact ⟨uid, by rw [occId, hg]⟩
      | vNone =>
        exfalso
        have hne : d.isEmpty = false := dictGet_some_not_isEmpty d "id" _ hg
        rw [anonymize_user, hne] at h
        simp only [Bool.false_eq_true, if_false] at h
        rw [hg] at h
        exact absurd h (by simp)
      | vStr s =>
        exfalso
        have hne : d.isEmpty = false := dictGet_some_not_isEmpty d "id" _ hg
        rw [anonymize_user, hne] at h
        simp only [Bool.false_eq_true, if_false] at h
        rw [hg] at h
        exact absurd h (by simp)
      | vList xs =>
        exfalso
        have hne : d.isEmpty = false := dictGet_some_not_isEmpty d "id" _ hg
        rw [anonymize_user, hne] at h
        simp only [Bool.false_eq_true, if_false] at h
        rw [hg] at h
        exact absurd h (by simp)
      | vDict dd =>
        exfalso
        have hne : d.isEmpty = false := dictGet_some_not_isEmpty d "id" _ hg
        rw [anonymize_user, hne] at h
        simp only [Bool.false_eq_true, if_false] at h
        rw [hg] at h
        exact absurd h (by simp)

theorem procWatchers_spec : ∀ (ws : List UVal) (m : Mapping)
    (ws' : List UVal) (m' : Mapping), MappingInv m →
    procWatchers ws m = some (ws', m') →
    mFold m ((ws.map watcherOcc).flatten) = some m' ∧ MappingInv m' ∧
    (∀ u ∈ (ws'.map watcherOcc).flatten, OutOcc u) := by
  intro ws
  induction ws with
  | nil =>
    intro m ws' m' hm h
    rw [procWatchers] at h
    injection h with h1
    have hw : ws' = [] := (congrArg Prod.fst h1).symm
    have hmm : m' = m := (congrArg Prod.snd h1).symm
    subst hw
    subst hmm
    exact ⟨rfl, hm, fun u hu => absurd hu (by simp)⟩
  | cons w ws ih =>
    intro m ws' m' hm h
    rw [procWatchers] at h
    by_cases hq : isQualWatcher w
    · rw [if_pos hq] at h
      cases ha : anonymize_user w m with
      | none => rw [ha] at h; exact absurd h (by simp)
      | some p =>
        rw [ha] at h
        replace h : (match procWatchers ws p.2 with
          | some (ws', m2) => some (p.1 :: ws', m2)
          | none => none) = some (ws', m') := h
        cases h2 : procWatchers ws p.2 with
        | none => rw [h2] at h; exact absurd h (by simp)
        | some q =>
          rw [h2] at h
          injection h with h3
          have hw : ws' = p.1 :: q.1 := (congrArg Prod.fst h3).symm
          have hmm : m' = q.2 := (congrArg Prod.snd h3).symm
          subst hw
          subst hmm
          have hinv1 : MappingInv p.2 := au_inv _ _ _ _ hm (by rw [ha])
          have spec2 := ih p.2 q.1 q.2 hinv1 (by rw [h2])
          obtain ⟨uid, hocc⟩ := au_qual_occId w m p hq (by rw [ha])
          obtain ⟨_, pr, _, hr⟩ := au_with_id w m p.1 p.2 uid hocc (by rw [ha])
          refine ⟨?_, spec2.2.1, ?_⟩
          · simp only [List.map_cons, List.flatten_cons]
            have hw1 : watcherOcc w = [w] := by rw [watcherOcc, if_pos hq]
            rw [hw1]
            refine mFold_append_of _ _ m p.2 q.2 ?_ spec2.1
            rw [mFold, ha]
            rfl
          · intro u hu
            simp only [List.map_cons, List.flatten_cons, List.mem_append] at hu
            rcases hu with hu | hu
            · have hq' : isQualWatcher p.1 = true := by
                rw [hr, isQualWatcher]
                simp [dictGet]
              rw [watcherOcc, if_pos hq'] at hu
              simp at hu
              subst hu
              intro uid' hocc'
              exact au_out_name _ _ _ _ hm (by rw [ha]) uid' hocc'
            · exact spec2.2.2 u hu
    · rw [if_neg hq] at h
      cases h2 : procWatchers ws m with
      | none => rw [h2] at h; exact absurd h (by simp)
      | some q =>
        rw [h2] at h
        injection h with h3
        have hw : ws' = w :: q.1 := (congrArg Prod.fst h3).symm
        have hmm : m' = q.2 := (congrArg Prod.snd h3).symm
        subst hw
        subst hmm
        have spec2 := ih m q.1 q.2 hm (by rw [h2])
        have hw0 : watcherOcc w = [] := by
          rw [watcherOcc, if_neg hq]
        refine ⟨?_, spec2.2.1, ?_⟩
        · simp only [List.map_cons, List.flatten_cons, hw0, List.nil_append]
          exact spec2.1
        · intro u hu
          simp only [List.map_cons, List.flatten_cons, hw0, List.nil_append] at hu
          exact spec2.2.2 u hu

theorem procJournalsField_spec (d : List (String × UVal)) (m : Mapping)
    (d' : List (String × UVal)) (m' : Mapping) (hm : MappingInv m)
    (h : procJournalsField d m = some (d', m')) :
    mFold m (journalsOcc d) = some m' ∧ MappingInv m' ∧
    (∀ u ∈ journalsOcc d', OutOcc u) ∧
    (∀ k, k ≠ "journals" → dictGet d' k = dictGet d k) := by
  rw [procJournalsField] at h
  cases hg : dictGet d "journals" with
  | none =>
    rw [hg] at h
    injection h with h1
    have hd : d' = d := (congrArg Prod.fst h1).symm
    have hmm : m' = m := (congrArg Prod.snd h1).symm
    subst hd
    subst hmm
    refine ⟨by rw [journalsOcc, hg]; rfl, hm, ?_, fun k _ => rfl⟩
    intro u hu
    rw [journalsOcc, hg] at hu
    simp at hu
  | some v =>
    rw [hg] at h
    cases v with
    | vList js =>
      replace h : (match procJournals js m with
        | some (js2, m2) => some (dictSet d "journals" (UVal.vList js2), m2)
        | none => none) = some (d', m') := h
      cases hp : procJournals js m with
      | none => rw [hp] at h; exact absurd h (by simp)
      | some q =>
        rw [hp] at h
        injection h with h1
        have hd : d' = dictSet d "journals" (UVal.vList q.1) :=
          (congrArg Prod.fst h1).symm
        have hmm : m' = q.2 := (congrArg Prod.snd h1).symm
        subst hd
        subst hmm
        have spec := procJournals_spec js m q.1 q.2 hm (by rw [hp])
        refine ⟨?_, spec.2.1, ?_, ?_⟩
        · rw [journalsOcc, hg]
          exact spec.1
        · intro u hu
          rw [journalsOcc, dictGet_dictSet_self] at hu
          replace hu : u ∈ (q.1.map journalOcc).flatten := hu
          exact spec.2.2 u hu
        · intro k hk
          exact dictGet_dictSet_ne d "journals" k _ (Ne.symm hk)
    | vNone =>
      injection h with h1
      have hd : d' = d := (congrArg Prod.fst h1).symm
      have hmm : m' = m := (congrArg Prod.snd h1).symm
      subst hd
      subst hmm
      refine ⟨by rw [journalsOcc, hg]; rfl, hm, ?_, fun k _ => rfl⟩
      intro u hu
      rw [journalsOcc, hg] at hu
      simp at hu
    | vInt n =>
      injection h with h1
      have hd : d' = d := (congrArg Prod.fst h1).symm
      have hmm : m' = m := (congrArg Prod.snd h1).symm
      subst hd
      subst hmm
      refine ⟨by rw [journalsOcc, hg]; rfl, hm, ?_, fun k _ => rfl⟩
      intro u hu
      rw [journalsOcc, hg] at hu
      simp at hu
    | vStr s =>
      injection h with h1
      have hd : d' = d := (congrArg Prod.fst h1).symm
      have hmm : m' = m := (congrArg Prod.snd h1).symm
      subst hd
      subst hmm
      refine ⟨by rw [journalsOcc, hg]; rfl, hm, ?_, fun k _ => rfl⟩
      intro u hu
      rw [journalsOcc, hg] at hu
      simp at hu
    | vDict dd =>
      injection h with h1
      have hd : d' = d := (congrArg Prod.fst h1).symm
      have hmm : m' = m := (congrArg Prod.snd h1).symm
      subst hd
      subst hmm
      refine ⟨by rw [journalsOcc, hg]; rfl, hm, ?_, fun k _ => rfl⟩
      intro u hu
      rw [journalsOcc, hg] at hu
      simp at hu

theorem procWatchersField_spec (d : List (String × UVal)) (m : Mapping)
    (d' : List (String × UVal)) (m' : Mapping) (hm : MappingInv m)
    (h : procWatchersField d m = some (d', m')) :
    mFold m (watchersOcc d) = some m' ∧ MappingInv m' ∧
    (∀ u ∈ watchersOcc d', OutOcc u) ∧
    (∀ k, k ≠ "watchers" → dictGet d' k = dictGet d k) := by
  rw [procWatchersField] at h
  cases hg : dictGet d "watchers" with
  | none =>
    rw [hg] at h
    injection h with h1
    have hd : d' = d := (congrArg Prod.fst h1).symm
    have hmm : m' = m := (congrArg Prod.snd h1).symm
    subst hd
    subst hmm
    refine ⟨by rw [watchersOcc, hg]; rfl, hm, ?_, fun k _ => rfl⟩
    intro u hu
    rw [watchersOcc, hg] at hu
    simp at hu
  | some v =>
    rw [hg] at h
    cases v with
    | vList ws =>
      replace h : (match procWatchers ws m with
        | some (ws2, m2) => some (dictSet d "watchers" (UVal.vList ws2), m2)
        | none => none) = some (d', m') := h
      cases hp : procWatchers ws m with
      | none => rw [hp] at h; exact absurd h (by simp)
      | some q =>
        rw [hp] at h
        injection h with h1
        have hd : d' = dictSet d "watchers" (UVal.vList q.1) :=
          (congrArg Prod.fst h1).symm
        have hmm : m' = q.2 := (congrArg Prod.snd h1).symm
        subst hd
        subst hmm
        have spec := procWatchers_spec ws m q.1 q.2 hm (by rw [hp])
        refine ⟨?_, spec.2.1, ?_, ?_⟩
        · rw [watchersOcc, hg]
          exact spec.1
        · intro u hu
          rw [watchersOcc, dictGet_dictSet_self] at hu
          replace hu : u ∈ (q.1.map watcherOcc).flatten := hu
          exact spec.2.2 u hu
        · intro k hk
          exact dictGet_dictSet_ne d "watchers" k _ (Ne.symm hk)
    | vNone =>
      injection h with h1
      have hd : d' = d := (congrArg Prod.fst h1).symm
      have hmm : m' = m := (congrArg Prod.snd h1).symm
      subst hd
      subst hmm
      refine ⟨by rw [watchersOcc, hg]; rfl, hm, ?_, fun k _ => rfl⟩
      intro u hu
      rw [watchersOcc, hg] at hu
      simp at hu
    | vInt n =>
      injection h with h1
      have hd : d' = d := (congrArg Prod.fst h1).symm
      have hmm : m' = m := (congrArg Prod.snd h1).symm
      subst hd
      subst hmm
      refine ⟨by rw [watchersOcc, hg]; rfl, hm, ?_, fun k _ => rfl⟩
      intro u hu
      rw [watchersOcc, hg] at hu
      simp at hu
    | vStr s =>
      injection h with h1
      have hd : d' = d := (congrArg Prod.fst h1).symm
      have hmm : m' = m := (congrArg Prod.snd h1).symm
      subst hd
      subst hmm
      refine ⟨by rw [watchersOcc, hg]; rfl, hm, ?_, fun k _ => rfl⟩
      intro u hu
      rw [watchersOcc, hg] at hu
      simp at hu
    | vDict dd =>
      injection h with h1
      have hd : d' = d := (congrArg Prod.fst h1).symm
      have hmm : m' = m := (congrArg Prod.snd h1).symm
      subst hd
      subst hmm
      refine ⟨by rw [watchersOcc, hg]; rfl, hm, ?_, fun k _ => rfl⟩
      intro u hu
      rw [watchersOcc, hg] at hu
      simp at hu

/-- C9: over one anonymization pass of an issue, (1) the mapping stays
well-formed — exactly one entry per identifier, every stored pseudonym
being `generate_anonymous_name` of its identifier, a deterministic
zero-padded function of the numeric identifier only; (2) existing
entries are never overwritten; (3) an identifier not yet in the mapping
ends up mapped to the display name of its first-processed occurrence
(author, assignee, journal user, watcher, in processing order) together
with its generated pseudonym; (4) every user reference in the output
document carrying an identifier carries exactly the generated pseudonym
of that identifier as its name — all occurrences of one identifier
receive the identical pseudonym. -/
theorem c9_anonymizer (iss : UVal) (m : Mapping) (iss' : UVal)
    (m' : Mapping) (hm : MappingInv m)
    (h : anonymize_issue iss m = some (iss', m')) :
    MappingInv m' ∧
    (∀ k v, mlookup m k = some v → mlookup m' k = some v) ∧
    (∀ uid, mlookup m uid = none →
      mlookup m' uid = (((occList iss).find? (fun u => occId u == some uid)).map
        (fun u => (occName u, generate_anonymous_name uid)))) ∧
    (∀ u ∈ occList iss', ∀ uid, occId u = some uid →
      getName u = some (UVal.vStr (generate_anonymous_name uid))) := by
  cases iss with
  | vNone => simp [anonymize_issue] at h
  | vInt n => simp [anonymize_issue] at h
  | vStr s => simp [anonymize_issue] at h
  | vList xs => simp [anonymize_issue] at h
  | vDict d0 =>
    rw [anonymize_issue] at h
    cases h1 : procField "author" d0 m with
    | none => rw [h1] at h; exact absurd h (by simp)
    | some p1 =>
      rw [h1] at h
      replace h : (match procField "assigned_to" p1.1 p1.2 with
        | some (d2, m2) =>
          match procJournalsField d2 m2 with
          | some (d3, m3) =>
            match procWatchersField d3 m3 with
            | some (d4, m4) => some (UVal.vDict d4, m4)
            | none => none
          | none => none
        | none => none) = some (iss', m') := h
      cases h2 : procField "assigned_to" p1.1 p1.2 with
      | none => rw [h2] at h; exact absurd h (by simp)
      | some p2 =>
        rw [h2] at h
        replace h : (match procJournalsField p2.1 p2.2 with
          | some (d3, m3) =>
            match procWatchersField d3 m3 with
            | some (d4, m4) => some (UVal.vDict d4, m4)
            | none => none
          | none => none) = some (iss', m') := h
        cases h3 : procJournalsField p2.1 p2.2 with
        | none => rw [h3] at h; exact absurd h (by simp)
        | some p3 =>
          rw [h3] at h
          replace h : (match procWatchersField p3.1 p3.2 with
            | some (d4, m4) => some (UVal.vDict d4, m4)
            | none => none) = some (iss', m') := h
          cases h4 : procWatchersField p3.1 p3.2 with
          | none => rw [h4] at h; exact absurd h (by simp)
          | some p4 =>
            rw [h4] at h
            injection h with h5
            have hiss : iss' = UVal.vDict p4.1 := (congrArg Prod.fst h5).symm
            have hmf : m' = p4.2 := (congrArg Prod.snd h5).symm
            subst hiss
            subst hmf
            have s1 := procField_spec "author" d0 m p1.1 p1.2 hm (by rw [h1])
            have s2 := procField_spec "assigned_to" p1.1 p1.2 p2.1 p2.2
              s1.2.1 (by rw [h2])
            have s3 := procJournalsField_spec p2.1 p2.2 p3.1 p3.2
              s2.2.1 (by rw [h3])
            have s4 := procWatchersField_spec p3.1 p3.2 p4.1 p4.2
              s3.2.1 (by rw [h4])
            have ga1 : dictGet p1.1 "assigned_to" = dictGet d0 "assigned_to" :=
              s1.2.2.2 "assigned_to" (by decide)
            have gj1 : dictGet p1.1 "journals" = dictGet d0 "journals" :=
              s1.2.2.2 "journals" (by decide)
            have gw1 : dictGet p1.1 "watchers" = dictGet d0 "watchers" :=
              s1.2.2.2 "watchers" (by decide)
            have gau2 : dictGet p2.1 "author" = dictGet p1.1 "author" :=
              s2.2.2.2 "author" (by decide)
            have gj2 : dictGet p2.1 "journals" = dictGet p1.1 "journals" :=
              s2.2.2.2 "journals" (by decide)
            have gw2 : dictGet p2.1 "watchers" = dictGet p1.1 "watchers" :=
              s2.2.2.2 "watchers" (by decide)
            have gau3 : dictGet p3.1 "author" = dictGet p2.1 "author" :=
              s3.2.2.2 "author" (by decide)
            have gas3 : dictGet p3.1 "assigned_to" = dictGet p2.1 "assigned_to" :=
              s3.2.2.2 "assigned_to" (by decide)
            have gw3 : dictGet p3.1 "watchers" = dictGet p2.1 "watchers" :=
              s3.2.2.2 "watchers" (by decide)
            have gau4 : dictGet p4.1 "author" = dictGet p3.1 "author" :=
              s4.2.2.2 "author" (by decide)
            have gas4 : dictGet p4.1 "assigned_to" = dictGet p3.1 "assigned_to" :=
              s4.2.2.2 "assigned_to" (by decide)
            have gj4 : dictGet p4.1 "journals" = dictGet p3.1 "journals" :=
              s4.2.2.2 "journals" (by decide)
            have e2 : fieldOcc "assigned_to" p1.1 = fieldOcc "assigned_to" d0 := by
              rw [fieldOcc, fieldOcc, ga1]
            have e3 : journalsOcc p2.1 = journalsOcc d0 := by
              rw [journalsOcc, journalsOcc, gj2, gj1]
            have e4 : watchersOcc p3.1 = watchersOcc d0 := by
              rw [watchersOcc, watchersOcc, gw3, gw2, gw1]
            have s2' : mFold p1.2 (fieldOcc "assigned_to" d0) = some p2.2 := by
              rw [← e2]
              exact s2.1
            have s3' : mFold p2.2 (journalsOcc d0) = some p3.2 := by
              rw [← e3]
              exact s3.1
            have s4' : mFold p3.2 (watchersOcc d0) = some p4.2 := by
              rw [← e4]
              exact s4.1
            have link : mFold m (occList (UVal.vDict d0)) = some p4.2 := by
              rw [occList]
              have l1 := mFold_append_of _ _ m p1.2 p2.2 s1.1 s2'
              have l2 := mFold_append_of _ _ m p2.2 p3.2 l1 s3'
              exact mFold_append_of _ _ m p3.2 p4.2 l2 s4' 
            refine ⟨s4.2.1, ?_, ?_, ?_⟩
            · intro k v hk
              exact mFold_mono _ m p4.2 link k v hk
            · intro uid hnone
              exact mFold_first uid _ m p4.2 link hnone
            · intro u hu uid hocc
              have eA : fieldOcc "author" p4.1 = fieldOcc "author" p1.1 := by
                rw [fieldOcc, fieldOcc, gau4, gau3, gau2]
              have eB : fieldOcc "assigned_to" p4.1
                  = fieldOcc "assigned_to" p2.1 := by
                rw [fieldOcc, fieldOcc, gas4, gas3]
              have eC : journalsOcc p4.1 = journalsOcc p3.1 := by
                rw [journalsOcc, journalsOcc, gj4]
              rw [occList, eA, eB, eC] at hu
              rcases List.mem_append.mp hu with hu2 | hu2
              · rcases List.mem_append.mp hu2 with hu3 | hu3
                · rcases List.mem_append.mp hu3 with hu4 | hu4
                  · exact s1.2.2.1 u hu4 uid hocc
                  · exact s2.2.2.1 u hu4 uid hocc
                · exact s3.2.2.1 u hu3 uid hocc
              · exact s4.2.2.1 u hu2 uid hocc

/-- The spec's three-occurrence document: identifier 7 appears as
author, journal user and watcher under three different display names. -/
def issEx : UVal := UVal.vDict [
  ("author", UVal.vDict [("id", UVal.vInt 7), ("name", UVal.vStr "Alice")]),
  ("journals", UVal.vList [UVal.vDict
    [("user", UVal.vDict [("id", UVal.vInt 7), ("name", UVal.vStr "Bob")])]]),
  ("watchers", UVal.vList [UVal.vDict
    [("id", UVal.vInt 7), ("name", UVal.vStr "Carol")]])]

/-- The anonymization of `issEx`: all three occurrences carry the single
pseudonym of identifier 7. -/
def issExOut : UVal := UVal.vDict [
  ("author", UVal.vDict [("id", UVal.vInt 7), ("name", UVal.vStr "User_00007")]),
  ("journals", UVal.vList [UVal.vDict
    [("user", UVal.vDict [("id", UVal.vInt 7), ("name", UVal.vStr "User_00007")])]]),
  ("watchers", UVal.vList [UVal.vDict
    [("id", UVal.vInt 7), ("name", UVal.vStr "User_00007")]])]

set_option maxRecDepth 40000 in
/-- Witness for C9 at the three-occurrence document: the mapping holds
exactly one entry for identifier 7, storing the first-processed display
name and the generated pseudonym. -/
theorem c9_witness :
    mlookup [(7, UVal.vStr "Alice", "User_00007")] 7
      = some (UVal.vStr "Alice", "User_00007") := by
  have hm : MappingInv [] := ⟨List.nodup_nil, by simp⟩
  have h := c9_anonymizer issEx [] issExOut
    [(7, UVal.vStr "Alice", "User_00007")] hm (by rfl)
  have h3 := h.2.2.1 7 rfl
  rw [h3]
  rfl

/-- C10: `anonymize_user` returns the object and mapping unchanged (no
exception, no fabricated pseudonym, no mapping entry) for an absent
(`None`) object, an empty dict, or a dict without an `id` key; a list of
watchers none of which qualifies is passed through entirely unchanged;
and in any watcher pass, positions holding non-qualifying entries (not a
dict with an `id` key) are returned untouched, position by position. -/
theorem c10_missing_id_untouched :
    (∀ (u : UVal) (m : Mapping),
      (u = UVal.vNone ∨ u = UVal.vDict [] ∨
        (∃ d, u = UVal.vDict d ∧ dictGet d "id" = none)) →
      anonymize_user u m = some (u, m)) ∧
    (∀ (ws : List UVal) (m : Mapping),
      (∀ w ∈ ws, isQualWatcher w = false) →
      procWatchers ws m = some (ws, m)) ∧
    (∀ (ws : List UVal) (m : Mapping) (ws' : List UVal) (m' : Mapping),
      procWatchers ws m = some (ws', m') →
      ws'.length = ws.length ∧
      (∀ (n : Nat) (w : UVal), ws[n]? = some w →
        isQualWatcher w = false → ws'[n]? = some w)) := by
  refine ⟨?_, ?_, ?_⟩
  · rintro u m (rfl | rfl | ⟨d, rfl, hd⟩)
    · rfl
    · rfl
    · rw [anonymize_user]
      by_cases he : d.isEmpty
      · rw [if_pos he]
      · rw [if_neg he, hd]
  · intro ws
    induction ws with
    | nil => intro m _; rfl
    | cons w ws ih =>
      intro m hws
      have hq : isQualWatcher w = false := hws w (List.mem_cons_self _ _)
      rw [procWatchers, if_neg (by rw [hq]; simp),
        ih m (fun x hx => hws x (List.mem_cons_of_mem _ hx))]
  · intro ws
    induction ws with
    | nil =>
      intro m ws' m' h
      rw [procWatchers] at h
      injection h with h1
      have hw : ws' = [] := (congrArg Prod.fst h1).symm
      subst hw
      exact ⟨rfl, fun n w hn _ => by simp at hn⟩
    | cons w ws ih =>
      intro m ws' m' h
      rw [procWatchers] at h
      by_cases hq : isQualWatcher w
      · rw [if_pos hq] at h
        cases ha : anonymize_user w m with
        | none => rw [ha] at h; exact absurd h (by simp)
        | some p =>
          rw [ha] at h
          replace h : (match procWatchers ws p.2 with
            | some (ws', m2) => some (p.1 :: ws', m2)
            | none => none) = some (ws', m') := h
          cases h2 : procWatchers ws p.2 with
          | none => rw [h2] at h; exact absurd h (by simp)
          | some q =>
            rw [h2] at h
            injection h with h3
            have hw : ws' = p.1 :: q.1 := (congrArg Prod.fst h3).symm
            subst hw
            have ihs := ih p.2 q.1 q.2 (by rw [h2])
            refine ⟨by simp [ihs.1], ?_⟩
            intro n w0 hn hq0
            cases n with
            | zero =>
              simp at hn
              subst hn
              rw [hq0] at hq
              simp at hq
            | succ n0 =>
              simp only [List.getElem?_cons_succ] at hn ⊢
              exact ihs.2 n0 w0 hn hq0
      · rw [if_neg hq] at h
        cases h2 : procWatchers ws m with
        | none => rw [h2] at h; exact absurd h (by simp)
        | some q =>
          rw [h2] at h
          injection h with h3
          have hw : ws' = w :: q.1 := (congrArg Prod.fst h3).symm
          subst hw
          have ihs := ih m q.1 q.2 (by rw [h2])
          refine ⟨by simp [ihs.1], ?_⟩
          intro n w0 hn hq0
          cases n with
          | zero => simpa using hn
          | succ n0 =>
            simp only [List.getElem?_cons_succ] at hn ⊢
            exact ihs.2 n0 w0 hn hq0

/-- Witness for C10 at concrete inputs: a `None` user object and a
watcher list holding an int and an id-less dict pass through
unchanged. -/
theorem c10_witness :
    anonymize_user UVal.vNone [] = some (UVal.vNone, []) ∧
    procWatchers [UVal.vInt 5, UVal.vDict [("name", UVal.vStr "x")]] []
      = some ([UVal.vInt 5, UVal.vDict [("name", UVal.vStr "x")]], []) :=
  ⟨c10_missing_id_untouched.1 UVal.vNone [] (Or.inl rfl),
    c10_missing_id_untouched.2.1
      [UVal.vInt 5, UVal.vDict [("name", UVal.vStr "x")]] []
      (by
        intro w hw
        simp only [List.mem_cons, List.not_mem_nil, or_false] at hw
        rcases hw with rfl | rfl
        · rfl
        · rfl)⟩
